import Mathlib

/-!
A shallow embedding of the pixel-comparison engine of the `pixel-match`
repository (files `src/index.ts`, `src/core-utils/utils.ts`,
`src/node/index.ts` and the worker `src/node/worker.ts`), together with
theorems settling the specification claims.

Modelling conventions:
* An RGBA byte buffer (JS `Uint8Array` / `Uint8ClampedArray`) is a `List ℕ`
  of samples; reading `img[k]` is `List.getD img k 0` (in-range accesses,
  the only ones the engine performs on valid inputs, agree with the array).
* JS `number` arithmetic is embedded in `ℚ` (the computations at stake are
  sums, products and divisions of decimal literals; the claims concern the
  exact algebra, not double rounding).  The single place where the original
  can produce the value `Infinity` (the minima of the core-utils
  `findBestMatchingPixel`, initialised to `Infinity`) is embedded in
  `WithTop ℚ`, whose `⊤` behaves like `Infinity` in every comparison the
  program performs.
* A store into a `Uint8Array` converts the stored number with JS `ToUint8`
  (truncation toward zero, then reduction mod 256); this is `jsToUint8`.
* The `Uint32Array` views `a32` / `b32` over an RGBA buffer are represented
  by reading the packed little-endian 32-bit value `a32 img i` of pixel `i`
  directly from the byte list.
-/

namespace PixelMatch

/-- Reading sample `k` of an RGBA byte buffer, as a rational (JS reads of a
typed array element produce a number). -/
def px (img : List ℕ) (k : ℕ) : ℚ := (img.getD k 0 : ℚ)

/-- Truncation toward zero of a rational, as JS `ToIntegerOrInfinity`. -/
def ratTrunc (v : ℚ) : ℤ := if 0 ≤ v then ⌊v⌋ else ⌈v⌉

/-- JS `ToUint8`: the conversion applied when a number is stored into a
`Uint8Array` element (truncate toward zero, then take the representative
mod 256 in `[0, 256)`). -/
def jsToUint8 (v : ℚ) : ℕ := (ratTrunc v % 256).toNat

/-- The packed 32-bit value of pixel `i` of an RGBA byte buffer: what the
`Uint32Array` view `a32` reads at index `i` (little-endian) for a valid
byte buffer. -/
def a32 (img : List ℕ) (i : ℕ) : ℕ :=
  img.getD (4 * i) 0 + 256 * img.getD (4 * i + 1) 0 +
    65536 * img.getD (4 * i + 2) 0 + 16777216 * img.getD (4 * i + 3) 0

/-- `colorDelta` from `src/core-utils/utils.ts` (the copy in `src/index.ts`
is character-for-character the same function): signed YIQ color difference
between pixel `k` of `img1` and pixel `m` of `img2`.  The `(k / φ) | 0`
truncations of the background hash are floors since `k` is a nonnegative
index. -/
def colorDelta (img1 img2 : List ℕ) (k m : ℕ) (yOnly : Bool) : ℚ :=
  let r1 := px img1 k
  let g1 := px img1 (k + 1)
  let b1 := px img1 (k + 2)
  let a1 := px img1 (k + 3)
  let r2 := px img2 m
  let g2 := px img2 (m + 1)
  let b2 := px img2 (m + 2)
  let a2 := px img2 (m + 3)
  let dr := r1 - r2
  let dg := g1 - g2
  let db := b1 - b2
  let da := a1 - a2
  if dr = 0 ∧ dg = 0 ∧ db = 0 ∧ da = 0 then 0
  else
    let rb : ℚ := 48 + 159 * ((k % 2 : ℕ) : ℚ)
    let gb : ℚ := 48 + 159 * (((⌊(k : ℚ) / 1.618033988749895⌋.toNat) % 2 : ℕ) : ℚ)
    let bb : ℚ := 48 + 159 * (((⌊(k : ℚ) / 2.618033988749895⌋.toNat) % 2 : ℕ) : ℚ)
    let dr := if a1 < 255 ∨ a2 < 255 then (r1 * a1 - r2 * a2 - rb * da) / 255 else dr
    let dg := if a1 < 255 ∨ a2 < 255 then (g1 * a1 - g2 * a2 - gb * da) / 255 else dg
    let db := if a1 < 255 ∨ a2 < 255 then (b1 * a1 - b2 * a2 - bb * da) / 255 else db
    let y := dr * 0.29889531 + dg * 0.58662247 + db * 0.11448223
    if yOnly then y
    else
      let i := dr * 0.59597799 - dg * 0.2741761 - db * 0.32180189
      let q := dr * 0.21147017 - dg * 0.52261711 + db * 0.31114694
      let delta := 0.5053 * y * y + 0.299 * i * i + 0.1957 * q * q
      if y > 0 then -delta else delta

/-- `drawPixel` (`src/core-utils/utils.ts` / `src/index.ts`): store an RGB
color with full opacity at byte position `pos` of the output buffer.  Each
store goes through the `Uint8Array` element conversion; stores past the end
of the buffer are ignored, as in JS. -/
def drawPixel (output : List ℕ) (pos : ℕ) (r g b : ℚ) : List ℕ :=
  ((((output.set pos (jsToUint8 r)).set (pos + 1) (jsToUint8 g)).set
      (pos + 2) (jsToUint8 b)).set (pos + 3) (jsToUint8 255))

/-- The number computed by `drawGrayPixel` before it is stored: the
white-blended grayscale of pixel `i` of `img` with blend factor `alpha`. -/
def grayValue (img : List ℕ) (i : ℕ) (alpha : ℚ) : ℚ :=
  255 + ((px img i * 0.29889531 + px img (i + 1) * 0.58662247 +
      px img (i + 2) * 0.11448223 - 255) * alpha * px img (i + 3)) / 255

/-- `drawGrayPixel` (`src/core-utils/utils.ts` / `src/index.ts`). -/
def drawGrayPixel (img : List ℕ) (i : ℕ) (alpha : ℚ) (output : List ℕ) : List ℕ :=
  let val := grayValue img i alpha
  drawPixel output i val val val

/-- The list of neighbor coordinates the clamped 3×3 loops of `antialiased`
and `hasManySiblings` visit: `x` from `x0` to `x2` (outer), `y` from `y0`
to `y2` (inner), skipping the center `(x1, y1)`. -/
def neighborList (x0 x2 y0 y2 x1 y1 : ℕ) : List (ℕ × ℕ) :=
  (List.range' x0 (x2 + 1 - x0)).flatMap (fun x =>
    (List.range' y0 (y2 + 1 - y0)).filterMap (fun y =>
      if x = x1 ∧ y = y1 then none else some (x, y)))

/-- The loop of `hasManySiblings`: count neighbors whose packed value
equals `val`, returning `true` as soon as the count exceeds 2. -/
def hmsLoop (img : List ℕ) (width val : ℕ) : List (ℕ × ℕ) → ℕ → Bool
  | [], _ => false
  | (x, y) :: rest, zeroes =>
    let z := zeroes + (if val = a32 img (y * width + x) then 1 else 0)
    if z > 2 then true else hmsLoop img width val rest z

/-- `hasManySiblings` (`src/core-utils/utils.ts` / `src/index.ts`), over the
byte image whose `Uint32Array` view the original receives.  The clamps
`Math.max(x1-1, 0)` are truncated `ℕ` subtraction. -/
def hasManySiblings (img : List ℕ) (x1 y1 width height : ℕ) : Bool :=
  let x0 := x1 - 1
  let y0 := y1 - 1
  let x2 := min (x1 + 1) (width - 1)
  let y2 := min (y1 + 1) (height - 1)
  let val := a32 img (y1 * width + x1)
  let zeroes : ℕ := if x1 = x0 ∨ x1 = x2 ∨ y1 = y0 ∨ y1 = y2 then 1 else 0
  hmsLoop img width val (neighborList x0 x2 y0 y2 x1 y1) zeroes

/-- Mutable state of the `antialiased` neighbor loop. -/
structure AAState where
  zeroes : ℕ
  darkest : ℚ
  brightest : ℚ
  minX : ℕ
  minY : ℕ
  maxX : ℕ
  maxY : ℕ
deriving Repr, DecidableEq

/-- The neighbor loop of `antialiased`; `none` is the early
`return false` taken once more than 2 luminance-equal neighbors are
counted.  `darkest` / `brightest` are the running `min` / `max` of the
original. -/
def aaLoop (img : List ℕ) (width pos : ℕ) : List (ℕ × ℕ) → AAState → Option AAState
  | [], st => some st
  | (x, y) :: rest, st =>
    let delta := colorDelta img img (pos * 4) ((y * width + x) * 4) true
    if delta = 0 then
      if st.zeroes + 1 > 2 then none
      else aaLoop img width pos rest { st with zeroes := st.zeroes + 1 }
    else if delta < st.darkest then
      aaLoop img width pos rest { st with darkest := delta, minX := x, minY := y }
    else if delta > st.brightest then
      aaLoop img width pos rest { st with brightest := delta, maxX := x, maxY := y }
    else aaLoop img width pos rest st

/-- `antialiased` (`src/core-utils/utils.ts` / `src/index.ts`).  `aImg` and
`bImg` are the byte images whose packed views the original receives as
`a32` / `b32`. -/
def antialiased (img : List ℕ) (x1 y1 width height : ℕ) (aImg bImg : List ℕ) : Bool :=
  let x0 := x1 - 1
  let y0 := y1 - 1
  let x2 := min (x1 + 1) (width - 1)
  let y2 := min (y1 + 1) (height - 1)
  let pos := y1 * width + x1
  let z0 : ℕ := if x1 = x0 ∨ x1 = x2 ∨ y1 = y0 ∨ y1 = y2 then 1 else 0
  match aaLoop img width pos (neighborList x0 x2 y0 y2 x1 y1) ⟨z0, 0, 0, 0, 0, 0, 0⟩ with
  | none => false
  | some st =>
    if st.darkest = 0 ∨ st.brightest = 0 then false
    else
      (hasManySiblings aImg st.minX st.minY width height &&
          hasManySiblings bImg st.minX st.minY width height) ||
        (hasManySiblings aImg st.maxX st.maxY width height &&
          hasManySiblings bImg st.maxX st.maxY width height)

/-- The signed shift offsets `-n, …, n` of one dimension of the shift
search window, in loop order. -/
def shiftList (n : ℕ) : List ℤ :=
  (List.range (2 * n + 1)).map (fun i => (i : ℤ) - (n : ℤ))

/-- The `(hShift, vShift)` pairs the shift search enumerates, `hShift`
outer, `vShift` inner. -/
def shiftPairs (hW vW : ℕ) : List (ℤ × ℤ) :=
  (shiftList hW).flatMap (fun hs => (shiftList vW).map (fun vs => (hs, vs)))

/-- The out-of-bounds test of the shift search (`isOutOfBounds` in
`src/index.ts`, inlined in `src/core-utils/utils.ts`). -/
def isOutOfBounds (x y : ℤ) (width height : ℕ) : Prop :=
  x < 0 ∨ (width : ℤ) ≤ x ∨ y < 0 ∨ (height : ℤ) ≤ y

instance (x y : ℤ) (width height : ℕ) : Decidable (isOutOfBounds x y width height) := by
  unfold isOutOfBounds; infer_instance

/-- The byte position of the pixel shifted by `(hShift, vShift)` from byte
position `pos`; nonnegative whenever the shifted coordinate is in
bounds. -/
def shiftedPos (pos : ℕ) (width : ℕ) (hShift vShift : ℤ) : ℕ :=
  ((pos : ℤ) + ((width : ℤ) * vShift + hShift) * 4).toNat

/-- The magnitude `Math.abs` lifted to `WithTop ℚ`
(`Math.abs Infinity = Infinity`). -/
def absT (v : WithTop ℚ) : WithTop ℚ := WithTop.map (fun q => |q|) v

/-- `findBestMatchingPixel` from `src/core-utils/utils.ts` (the copy the
worker uses): both directional minima start at `Infinity`, embedded as
`⊤ : WithTop ℚ`. -/
def findBestMatchingPixel (img1 img2 : List ℕ) (x y width height pos hW vW : ℕ) :
    WithTop ℚ :=
  let r := (shiftPairs hW vW).foldl
    (fun (acc : WithTop ℚ × WithTop ℚ) (sh : ℤ × ℤ) =>
      if isOutOfBounds ((x : ℤ) + sh.1) ((y : ℤ) + sh.2) width height then acc
      else
        let sp := shiftedPos pos width sh.1 sh.2
        let currDelta := colorDelta img1 img2 pos sp false
        let otherDelta := colorDelta img1 img2 sp pos false
        let m1 := if ((|currDelta| : ℚ) : WithTop ℚ) < absT acc.1
          then ((currDelta : ℚ) : WithTop ℚ) else acc.1
        let m2 := if ((|otherDelta| : ℚ) : WithTop ℚ) < absT acc.2
          then ((otherDelta : ℚ) : WithTop ℚ) else acc.2
        (m1, m2))
    (⊤, ⊤)
  if absT r.1 > absT r.2 then r.1 else r.2

/-- `findBestMatchingPixel` as duplicated in `src/index.ts`: identical to
the core-utils copy except that both minima start at the finite sentinel
`9999` instead of `Infinity`. -/
def findBestMatchingPixelIdx (img1 img2 : List ℕ) (x y width height pos hW vW : ℕ) :
    ℚ :=
  let r := (shiftPairs hW vW).foldl
    (fun (acc : ℚ × ℚ) (sh : ℤ × ℤ) =>
      if isOutOfBounds ((x : ℤ) + sh.1) ((y : ℤ) + sh.2) width height then acc
      else
        let sp := shiftedPos pos width sh.1 sh.2
        let currDelta := colorDelta img1 img2 pos sp false
        let otherDelta := colorDelta img1 img2 sp pos false
        let m1 := if |currDelta| < |acc.1| then currDelta else acc.1
        let m2 := if |otherDelta| < |acc.2| then otherDelta else acc.2
        (m1, m2))
    (9999, 9999)
  if |r.1| > |r.2| then r.1 else r.2

/-- A fully-resolved options record: every field holds the value obtained
after the JS destructuring defaults of `pixelmatch` / the worker
(`threshold = 0.1`, `alpha = 0.1`, `aaColor = [255,255,0]`,
`diffColor = [255,0,0]`, shifts `= 0`, booleans absent ↦ `false`).
`diffColorAlt` stays optional: the fallback `diffColorAlt || diffColor`
is applied at use sites, as in the source. -/
structure PixelmatchOptions where
  threshold : ℚ
  includeAA : Bool
  alpha : ℚ
  aaColor : ℚ × ℚ × ℚ
  diffColor : ℚ × ℚ × ℚ
  diffColorAlt : Option (ℚ × ℚ × ℚ)
  diffMask : Bool
  horizontalShiftPixels : ℕ
  verticalShiftPixels : ℕ

/-- The body of the per-pixel loop shared by `src/index.ts` (sequential)
and the worker, at pixel `(x, y)`, acting on the accumulator
`(diff count, optional output buffer)`.  `fbmp` abstracts over the copy of
`findBestMatchingPixel` linked in (`src/index.ts` starts its minima at the
finite `9999`; the worker's core-utils copy starts at `Infinity`), so the
result of the shift search lives in `WithTop ℚ`. -/
def pixelStepWith (fbmp : List ℕ → List ℕ → ℕ → ℕ → ℕ → ℕ → ℕ → ℕ → ℕ → WithTop ℚ)
    (img1 img2 : List ℕ) (width height : ℕ) (o : PixelmatchOptions)
    (acc : ℕ × Option (List ℕ)) (p : ℕ × ℕ) : ℕ × Option (List ℕ) :=
  let maxDelta := 35215 * o.threshold * o.threshold
  let x := p.1
  let y := p.2
  let i := y * width + x
  let pos := i * 4
  let delta0 : ℚ := if a32 img1 i = a32 img2 i then 0 else colorDelta img1 img2 pos pos false
  let delta : WithTop ℚ :=
    if (delta0 > maxDelta ∨ delta0 < -1 * maxDelta) ∧
        (o.horizontalShiftPixels > 0 ∨ o.verticalShiftPixels > 0) then
      fbmp img1 img2 x y width height pos o.horizontalShiftPixels o.verticalShiftPixels
    else ((delta0 : ℚ) : WithTop ℚ)
  if absT delta > ((maxDelta : ℚ) : WithTop ℚ) then
    let isAA := antialiased img1 x y width height img1 img2 ||
      antialiased img2 x y width height img2 img1
    if !o.includeAA && isAA then
      (acc.1,
        if !o.diffMask then
          acc.2.map (fun out => drawPixel out pos o.aaColor.1 o.aaColor.2.1 o.aaColor.2.2)
        else acc.2)
    else
      let alt := o.diffColorAlt.getD o.diffColor
      (acc.1 + 1,
        acc.2.map (fun out =>
          if delta < ((0 : ℚ) : WithTop ℚ) then drawPixel out pos alt.1 alt.2.1 alt.2.2
          else drawPixel out pos o.diffColor.1 o.diffColor.2.1 o.diffColor.2.2))
  else
    (acc.1,
      if !o.diffMask then acc.2.map (fun out => drawGrayPixel img1 pos o.alpha out)
      else acc.2)

/-- The `src/index.ts` copy of `findBestMatchingPixel`, whose result (a
plain finite number) is fed into the same comparisons as the worker's. -/
def fbmpSeq (img1 img2 : List ℕ) (x y width height pos hW vW : ℕ) : WithTop ℚ :=
  ((findBestMatchingPixelIdx img1 img2 x y width height pos hW vW : ℚ) : WithTop ℚ)

/-- The per-pixel step of the sequential `pixelmatch` of `src/index.ts`
(its local `findBestMatchingPixel` starts the minima at `9999`). -/
def pixelStepSeq (img1 img2 : List ℕ) (width height : ℕ) (o : PixelmatchOptions)
    (acc : ℕ × Option (List ℕ)) (p : ℕ × ℕ) : ℕ × Option (List ℕ) :=
  pixelStepWith fbmpSeq img1 img2 width height o acc p

/-- The per-pixel step of the worker (`src/node/worker.ts`), which links
the core-utils `findBestMatchingPixel` whose minima start at `Infinity`. -/
def pixelStepWorker (img1 img2 : List ℕ) (width height : ℕ) (o : PixelmatchOptions)
    (acc : ℕ × Option (List ℕ)) (p : ℕ × ℕ) : ℕ × Option (List ℕ) :=
  pixelStepWith findBestMatchingPixel img1 img2 width height o acc p

/-- The pixel coordinates of rows `y0 ≤ y < y1`, in the loop order of the
source (`y` outer, `x` inner). -/
def pixelList (width y0 y1 : ℕ) : List (ℕ × ℕ) :=
  (List.range' y0 (y1 - y0)).flatMap (fun y => (List.range width).map (fun x => (x, y)))

/-- The identical-image fast-path test: the loop comparing the packed
views `a32` / `b32` over all `width * height` pixels. -/
def imagesIdentical (img1 img2 : List ℕ) (len : ℕ) : Bool :=
  (List.range len).all (fun i => a32 img1 i == a32 img2 i)

/-- The identical-image rendering: `drawGrayPixel` over every pixel, as in
the fast path of `pixelmatch` and `_pixelmatch_node_workers`. -/
def grayAll (img : List ℕ) (alpha : ℚ) (len : ℕ) (output : List ℕ) : List ℕ :=
  (List.range len).foldl (fun out i => drawGrayPixel img (4 * i) alpha out) output

/-- The comparison core of the sequential `pixelmatch` of `src/index.ts`
after validation: identical-image fast path, then the per-pixel double
loop.  Returns the diff count and the final contents of the optional
output buffer. -/
def pixelmatchCore (img1 img2 : List ℕ) (output : Option (List ℕ)) (width height : ℕ)
    (o : PixelmatchOptions) : ℕ × Option (List ℕ) :=
  let len := width * height
  if imagesIdentical img1 img2 len then
    (0, if !o.diffMask then output.map (grayAll img1 o.alpha len) else output)
  else
    (pixelList width 0 height).foldl (pixelStepSeq img1 img2 width height o) (0, output)

/-- The worker body (`src/node/worker.ts`): the same per-pixel loop over
the band of rows `startY ≤ y < endY`, writing into the shared staging
buffer view. -/
def workerBody (img1 img2 : List ℕ) (staging : Option (List ℕ)) (width height startY endY : ℕ)
    (o : PixelmatchOptions) : ℕ × Option (List ℕ) :=
  (pixelList width startY endY).foldl (pixelStepWorker img1 img2 width height o) (0, staging)

/-- `_pixelmatch_node_workers` (`src/node/index.ts`) with the number of
workers as a parameter (the source uses `max 1 (cpus - 1)`): identical
fast path (note its `options.alpha || 0.1`, which replaces a zero alpha by
the default), then the row bands `[i*chunkHeight, min ((i+1)*chunkHeight) height)`
each run by one worker against a zero-initialised shared staging buffer
(`SharedArrayBuffer` contents start as zero bytes), counts summed and the
staging buffer copied back over the output.  Band tasks write disjoint row
ranges of the staging buffer, so the concurrent execution is observably
the in-order composition modelled here. -/
def pixelmatchNodeWorkers (numWorkers : ℕ) (img1 img2 : List ℕ) (output : Option (List ℕ))
    (width height : ℕ) (o : PixelmatchOptions) : ℕ × Option (List ℕ) :=
  let len := width * height
  if imagesIdentical img1 img2 len then
    (0,
      if !o.diffMask then
        output.map (grayAll img1 (if o.alpha = 0 then 0.1 else o.alpha) len)
      else output)
  else
    let chunkHeight := (height + numWorkers - 1) / numWorkers
    let staging0 : Option (List ℕ) := output.map (fun out => List.replicate out.length 0)
    let r := (List.range numWorkers).foldl
      (fun (acc : ℕ × Option (List ℕ)) i =>
        let startY := i * chunkHeight
        let endY := min ((i + 1) * chunkHeight) height
        let w := workerBody img1 img2 acc.2 width height startY endY o
        (acc.1 + w.1, w.2))
      (0, staging0)
    (r.1, match output, r.2 with
      | some _, some st => some st
      | _, _ => output)

/-- A JS typed-array view as the validation code sees it: its
`BYTES_PER_ELEMENT` and its flat contents.  `isPixelData` accepts exactly
the one-byte-per-sample views (`Uint8Array`, `Uint8ClampedArray`,
`Buffer`). -/
structure JSBuffer where
  bytesPerElement : ℕ
  data : List ℕ
deriving Repr, DecidableEq

/-- `isPixelData` (`src/index.ts` / `src/core-utils/utils.ts`). -/
def isPixelData (b : JSBuffer) : Bool := b.bytesPerElement == 1

/-- The output half of the format check `output && !isPixelData(output)`:
an absent output passes, a present one must be pixel data. -/
def outputFormatOk (output : Option JSBuffer) : Bool :=
  match output with
  | some out => isPixelData out
  | none => true

/-- The output half of the size check
`output && output.length !== img1.length`. -/
def outputSizeBad (output : Option JSBuffer) (len : ℕ) : Bool :=
  match output with
  | some out => out.data.length != len
  | none => false

/-- The three distinct errors `pixelmatch` can throw, in the spec's
taxonomy. -/
inductive PMError where
  | formatError
  | sizeMismatchError
  | dimensionMismatchError
deriving Repr, DecidableEq

/-- The full sequential `pixelmatch` entry point of `src/index.ts`:
validation (format, then sizes, then dimensions), then the comparison
core.  The second component is the contents of the caller's output buffer
after the call: on every error path it is returned untouched, since the
source throws before any write. -/
def pixelmatch (img1 img2 : JSBuffer) (output : Option JSBuffer) (width height : ℕ)
    (o : PixelmatchOptions) : Except PMError ℕ × Option (List ℕ) :=
  if ¬ (isPixelData img1 && isPixelData img2 && outputFormatOk output) then
    (Except.error PMError.formatError, output.map JSBuffer.data)
  else if img1.data.length != img2.data.length ||
      outputSizeBad output img1.data.length then
    (Except.error PMError.sizeMismatchError, output.map JSBuffer.data)
  else if img1.data.length ≠ width * height * 4 then
    (Except.error PMError.dimensionMismatchError, output.map JSBuffer.data)
  else
    let r := pixelmatchCore img1.data img2.data (output.map JSBuffer.data) width height o
    (Except.ok r.1, r.2)

/-! Derived views of the per-pixel decision, used to reason about the
loops.  Each one re-expresses a component of `pixelStepWith` (they are
proved equal to it below); the decision itself depends only on the two
input images, never on the output buffer or the running count. -/

/-- The flat pixel index of loop coordinates `(x, y)`. -/
def idx (width : ℕ) (p : ℕ × ℕ) : ℕ := p.2 * width + p.1

/-- The delta the per-pixel body ends up classifying at pixel `p`. -/
def pixelDeltaWith (fbmp : List ℕ → List ℕ → ℕ → ℕ → ℕ → ℕ → ℕ → ℕ → ℕ → WithTop ℚ)
    (img1 img2 : List ℕ) (width height : ℕ) (o : PixelmatchOptions) (p : ℕ × ℕ) :
    WithTop ℚ :=
  let maxDelta := 35215 * o.threshold * o.threshold
  let i := idx width p
  let pos := i * 4
  let delta0 : ℚ := if a32 img1 i = a32 img2 i then 0 else colorDelta img1 img2 pos pos false
  if (delta0 > maxDelta ∨ delta0 < -1 * maxDelta) ∧
      (o.horizontalShiftPixels > 0 ∨ o.verticalShiftPixels > 0) then
    fbmp img1 img2 p.1 p.2 width height pos o.horizontalShiftPixels o.verticalShiftPixels
  else ((delta0 : ℚ) : WithTop ℚ)

/-- The anti-aliasing classification at pixel `p` (independent of options
and output). -/
def pixelIsAA (img1 img2 : List ℕ) (width height : ℕ) (p : ℕ × ℕ) : Bool :=
  antialiased img1 p.1 p.2 width height img1 img2 ||
    antialiased img2 p.1 p.2 width height img2 img1

/-- Whether the per-pixel body increments the diff count at pixel `p`. -/
def pixelCountedWith (fbmp : List ℕ → List ℕ → ℕ → ℕ → ℕ → ℕ → ℕ → ℕ → ℕ → WithTop ℚ)
    (img1 img2 : List ℕ) (width height : ℕ) (o : PixelmatchOptions) (p : ℕ × ℕ) : Bool :=
  let maxDelta := 35215 * o.threshold * o.threshold
  let delta := pixelDeltaWith fbmp img1 img2 width height o p
  if absT delta > ((maxDelta : ℚ) : WithTop ℚ) then
    !(!o.includeAA && pixelIsAA img1 img2 width height p)
  else false

/-- The RGB color the per-pixel body writes at pixel `p` (`none` when the
branch taken does not write). -/
def pixelRGBWith (fbmp : List ℕ → List ℕ → ℕ → ℕ → ℕ → ℕ → ℕ → ℕ → ℕ → WithTop ℚ)
    (img1 img2 : List ℕ) (width height : ℕ) (o : PixelmatchOptions) (p : ℕ × ℕ) :
    Option (ℚ × ℚ × ℚ) :=
  let maxDelta := 35215 * o.threshold * o.threshold
  let delta := pixelDeltaWith fbmp img1 img2 width height o p
  if absT delta > ((maxDelta : ℚ) : WithTop ℚ) then
    if !o.includeAA && pixelIsAA img1 img2 width height p then
      if !o.diffMask then some o.aaColor else none
    else
      some (if delta < ((0 : ℚ) : WithTop ℚ) then o.diffColorAlt.getD o.diffColor else o.diffColor)
  else
    if !o.diffMask then
      let v := grayValue img1 (idx width p * 4) o.alpha
      some (v, v, v)
    else none

/-- A write of one RGBA pixel block: paint pixel `i` with color `f i`
(no-op when `f i = none`).  Every output mutation the engine performs is
of this shape. -/
def blockWrite (f : ℕ → Option (ℚ × ℚ × ℚ)) (out : List ℕ) (i : ℕ) : List ℕ :=
  match f i with
  | none => out
  | some c => drawPixel out (4 * i) c.1 c.2.1 c.2.2

/-- The per-pixel-index color function of a run (recovering the loop
coordinates from the flat index). -/
def pixelFWith (fbmp : List ℕ → List ℕ → ℕ → ℕ → ℕ → ℕ → ℕ → ℕ → ℕ → WithTop ℚ)
    (img1 img2 : List ℕ) (width height : ℕ) (o : PixelmatchOptions) (i : ℕ) :
    Option (ℚ × ℚ × ℚ) :=
  pixelRGBWith fbmp img1 img2 width height o (i % width, i / width)

/-- The color function of the identical-image gray rendering. -/
def grayF (img : List ℕ) (alpha : ℚ) (i : ℕ) : Option (ℚ × ℚ × ℚ) :=
  some (grayValue img (4 * i) alpha, grayValue img (4 * i) alpha, grayValue img (4 * i) alpha)

/-- The byte a fold of `blockWrite f` leaves at byte position `j` of a
pixel it painted. -/
def writtenByte (f : ℕ → Option (ℚ × ℚ × ℚ)) (j : ℕ) : ℕ :=
  match f (j / 4) with
  | none => 0
  | some c =>
    if j % 4 = 0 then jsToUint8 c.1
    else if j % 4 = 1 then jsToUint8 c.2.1
    else if j % 4 = 2 then jsToUint8 c.2.2
    else jsToUint8 255

/-- The luminance delta `antialiased` computes for the neighbor `q` of the
center pixel at byte-index base `pos`. -/
def aaDelta (img : List ℕ) (width pos : ℕ) (q : ℕ × ℕ) : ℚ :=
  colorDelta img img (pos * 4) ((q.2 * width + q.1) * 4) true

/-- The luminance deltas of the (clamped) neighbors `antialiased` examines
at `(x1, y1)`, in loop order. -/
def aaNeighborDeltas (img : List ℕ) (x1 y1 width height : ℕ) : List ℚ :=
  let x0 := x1 - 1
  let y0 := y1 - 1
  let x2 := min (x1 + 1) (width - 1)
  let y2 := min (y1 + 1) (height - 1)
  let pos := y1 * width + x1
  (neighborList x0 x2 y0 y2 x1 y1).map (aaDelta img width pos)

/-- The initial equal-neighbor count of `antialiased` (1 for pixels on an
image edge, 0 otherwise). -/
def aaEdgeBonus (x1 y1 width height : ℕ) : ℕ :=
  if x1 = x1 - 1 ∨ x1 = min (x1 + 1) (width - 1) ∨ y1 = y1 - 1 ∨
      y1 = min (y1 + 1) (height - 1) then 1 else 0

/-- Apply an optional pixel color at byte position `pos` to an optional
output buffer. -/
def applyRGB (c? : Option (ℚ × ℚ × ℚ)) (pos : ℕ) (out? : Option (List ℕ)) :
    Option (List ℕ) :=
  match c? with
  | none => out?
  | some c => out?.map (fun out => drawPixel out pos c.1 c.2.1 c.2.2)

/-- An options record holding exactly the JS destructuring defaults. -/
def defaultOptions : PixelmatchOptions :=
  ⟨0.1, false, 0.1, (255, 255, 0), (255, 0, 0), none, false, 0, 0⟩

/-! ### Basic facts about buffer reads and writes -/

theorem getD_set (l : List ℕ) (i j v : ℕ) :
    (l.set i v).getD j 0 = if i = j ∧ j < l.length then v else l.getD j 0 := by
  rcases Decidable.em (i = j ∧ j < l.length) with h | h
  · rcases h with ⟨rfl, hj⟩
    simp [List.getD_eq_getElem?_getD, List.getElem?_set, hj]
  · rw [if_neg h]
    rcases Decidable.em (i = j) with rfl | hij
    · have hj : ¬ i < l.length := fun hc => h ⟨rfl, hc⟩
      simp [List.getD_eq_getElem?_getD, List.getElem?_set, hj]
      rw [List.getElem?_eq_none (by omega)]
      rfl
    · simp [List.getD_eq_getElem?_getD, List.getElem?_set, hij]

theorem length_drawPixel (out : List ℕ) (pos : ℕ) (r g b : ℚ) :
    (drawPixel out pos r g b).length = out.length := by
  simp [drawPixel]

theorem jsToUint8_255 : jsToUint8 255 = 255 := by
  have h : ratTrunc 255 = 255 := by norm_num [ratTrunc]
  rw [jsToUint8, h]
  decide

theorem getD_drawPixel (out : List ℕ) (pos j : ℕ) (r g b : ℚ) :
    (drawPixel out pos r g b).getD j 0 =
      if pos = j ∧ j < out.length then jsToUint8 r
      else if pos + 1 = j ∧ j < out.length then jsToUint8 g
      else if pos + 2 = j ∧ j < out.length then jsToUint8 b
      else if pos + 3 = j ∧ j < out.length then jsToUint8 255
      else out.getD j 0 := by
  unfold drawPixel
  rw [getD_set, getD_set, getD_set, getD_set]
  simp only [List.length_set]
  split_ifs with h1 h2 h3 h4 h5 h6 h7 h8 h9 h10 <;> first | rfl | omega

theorem length_blockWrite (f : ℕ → Option (ℚ × ℚ × ℚ)) (out : List ℕ) (i : ℕ) :
    (blockWrite f out i).length = out.length := by
  unfold blockWrite
  cases f i with
  | none => rfl
  | some c => exact length_drawPixel ..

theorem length_foldl_blockWrite (f : ℕ → Option (ℚ × ℚ × ℚ)) (L : List ℕ) (out : List ℕ) :
    (L.foldl (blockWrite f) out).length = out.length := by
  induction L generalizing out with
  | nil => rfl
  | cons i R ih => rw [List.foldl_cons, ih, length_blockWrite]

/-- A byte position belongs to the block of pixel `i` exactly when its
pixel index is `i`. -/
theorem mem_block_iff (i j : ℕ) : j / 4 = i ↔ (4 * i ≤ j ∧ j < 4 * i + 4) := by
  omega

/-- Writing pixel `i` does not change bytes of other pixels. -/
theorem getD_blockWrite_ne (f : ℕ → Option (ℚ × ℚ × ℚ)) (out : List ℕ) (i j : ℕ)
    (h : j / 4 ≠ i) : (blockWrite f out i).getD j 0 = out.getD j 0 := by
  unfold blockWrite
  cases f i with
  | none => rfl
  | some c =>
    rw [getD_drawPixel]
    split_ifs with h1 h2 h3 h4 <;> first | rfl | omega

/-- Writing pixel `i` sets its bytes to the `writtenByte` values. -/
theorem getD_blockWrite_eq (f : ℕ → Option (ℚ × ℚ × ℚ)) (out : List ℕ) (i j : ℕ)
    (hij : j / 4 = i) (hf : (f i).isSome) (hj : j < out.length) :
    (blockWrite f out i).getD j 0 = writtenByte f j := by
  subst hij
  cases hfi : f (j / 4) with
  | none => rw [hfi] at hf; simp at hf
  | some c =>
    have hbw : blockWrite f out (j / 4) = drawPixel out (4 * (j / 4)) c.1 c.2.1 c.2.2 := by
      unfold blockWrite; rw [hfi]
    have hwb : writtenByte f j =
        (if j % 4 = 0 then jsToUint8 c.1 else if j % 4 = 1 then jsToUint8 c.2.1
          else if j % 4 = 2 then jsToUint8 c.2.2 else jsToUint8 255) := by
      unfold writtenByte; rw [hfi]
    rw [hbw, hwb, getD_drawPixel]
    have hj4 : j % 4 = 0 ∨ j % 4 = 1 ∨ j % 4 = 2 ∨ j % 4 = 3 := by omega
    rcases hj4 with h4 | h4 | h4 | h4 <;>
      · split_ifs <;> first | rfl | omega

/-- Pointwise contents of a fold of block writes over distinct pixel
indices: a byte of a painted pixel holds its `writtenByte`, all others are
untouched. -/
theorem getD_foldl_blockWrite (f : ℕ → Option (ℚ × ℚ × ℚ)) (L : List ℕ) (hL : L.Nodup)
    (out : List ℕ) (j : ℕ) (hj : j < out.length) :
    (L.foldl (blockWrite f) out).getD j 0 =
      if j / 4 ∈ L ∧ ((f (j / 4)).isSome : Prop) then writtenByte f j
      else out.getD j 0 := by
  induction L generalizing out with
  | nil => simp
  | cons i R ih =>
    rw [List.nodup_cons] at hL
    rw [List.foldl_cons, ih hL.2 _ (by rw [length_blockWrite]; exact hj)]
    rcases Decidable.em (j / 4 ∈ R ∧ ((f (j / 4)).isSome : Prop)) with h | h
    · rw [if_pos h, if_pos ⟨List.mem_cons_of_mem _ h.1, h.2⟩]
    · rw [if_neg h]
      rcases Decidable.em (j / 4 = i) with rfl | hne
      · rcases Decidable.em ((f (j / 4)).isSome : Prop) with hf | hf
        · rw [getD_blockWrite_eq f out _ j rfl hf hj,
            if_pos ⟨List.mem_cons_self _ _, hf⟩]
        · have hnone : f (j / 4) = none := by
            cases hfi : f (j / 4) with
            | none => rfl
            | some c => rw [hfi] at hf; simp at hf
          have hbw : blockWrite f out (j / 4) = out := by
            unfold blockWrite; rw [hnone]
          rw [hbw, if_neg (fun hc => hf hc.2)]
      · rw [getD_blockWrite_ne f out i j hne]
        rw [if_neg]
        rintro ⟨hmem, hf⟩
        rcases List.mem_cons.mp hmem with h1 | h1
        · exact hne h1
        · exact h ⟨h1, hf⟩

/-! ### Decomposing the per-pixel step -/

theorem absT_coe (q : ℚ) : absT ((q : ℚ) : WithTop ℚ) = ((|q| : ℚ) : WithTop ℚ) := rfl

/-- The per-pixel body splits into an output-independent count increment
and an output-independent choice of pixel color. -/
theorem pixelStepWith_decomp
    (fbmp : List ℕ → List ℕ → ℕ → ℕ → ℕ → ℕ → ℕ → ℕ → ℕ → WithTop ℚ)
    (img1 img2 : List ℕ) (width height : ℕ) (o : PixelmatchOptions)
    (acc : ℕ × Option (List ℕ)) (p : ℕ × ℕ) :
    pixelStepWith fbmp img1 img2 width height o acc p =
      (acc.1 + (if pixelCountedWith fbmp img1 img2 width height o p then 1 else 0),
       applyRGB (pixelRGBWith fbmp img1 img2 width height o p) (idx width p * 4) acc.2) := by
  unfold pixelStepWith pixelCountedWith pixelRGBWith pixelDeltaWith pixelIsAA idx applyRGB
    drawGrayPixel
  dsimp only
  split_ifs <;> first | rfl | simp_all

theorem pixelFWith_eq
    (fbmp : List ℕ → List ℕ → ℕ → ℕ → ℕ → ℕ → ℕ → ℕ → ℕ → WithTop ℚ)
    (img1 img2 : List ℕ) (width height : ℕ) (o : PixelmatchOptions) (p : ℕ × ℕ)
    (hp : p.1 < width) :
    pixelFWith fbmp img1 img2 width height o (idx width p) =
      pixelRGBWith fbmp img1 img2 width height o p := by
  have hw : 0 < width := Nat.lt_of_le_of_lt (Nat.zero_le _) hp
  have hmod : idx width p % width = p.1 := by
    unfold idx
    rw [Nat.add_comm, Nat.add_mul_mod_self_right, Nat.mod_eq_of_lt hp]
  have hdiv : idx width p / width = p.2 := by
    unfold idx
    rw [Nat.add_comm, Nat.add_mul_div_right _ _ hw, Nat.div_eq_of_lt hp, Nat.zero_add]
  unfold pixelFWith
  rw [hmod, hdiv]

theorem applyRGB_blockWrite
    (fbmp : List ℕ → List ℕ → ℕ → ℕ → ℕ → ℕ → ℕ → ℕ → ℕ → WithTop ℚ)
    (img1 img2 : List ℕ) (width height : ℕ) (o : PixelmatchOptions) (p : ℕ × ℕ)
    (hp : p.1 < width) (out? : Option (List ℕ)) :
    applyRGB (pixelRGBWith fbmp img1 img2 width height o p) (idx width p * 4) out? =
      out?.map (fun out =>
        blockWrite (pixelFWith fbmp img1 img2 width height o) out (idx width p)) := by
  unfold applyRGB blockWrite
  rw [pixelFWith_eq fbmp img1 img2 width height o p hp]
  cases pixelRGBWith fbmp img1 img2 width height o p with
  | none => cases out? <;> rfl
  | some c => rw [Nat.mul_comm]

/-- The whole per-pixel fold splits into the count of counted pixels and a
fold of block writes over the flat pixel indices. -/
theorem foldl_pixelStepWith
    (fbmp : List ℕ → List ℕ → ℕ → ℕ → ℕ → ℕ → ℕ → ℕ → ℕ → WithTop ℚ)
    (img1 img2 : List ℕ) (width height : ℕ) (o : PixelmatchOptions)
    (L : List (ℕ × ℕ)) (hL : ∀ p ∈ L, p.1 < width) (c : ℕ) (out? : Option (List ℕ)) :
    L.foldl (pixelStepWith fbmp img1 img2 width height o) (c, out?) =
      (c + L.countP (pixelCountedWith fbmp img1 img2 width height o),
       out?.map (fun out =>
        (L.map (idx width)).foldl
          (blockWrite (pixelFWith fbmp img1 img2 width height o)) out)) := by
  induction L generalizing c out? with
  | nil => simp
  | cons p R ih =>
    rw [List.foldl_cons, pixelStepWith_decomp,
      applyRGB_blockWrite fbmp img1 img2 width height o p (hL p (List.mem_cons_self p R)),
      ih (fun q hq => hL q (List.mem_cons_of_mem p hq)), List.countP_cons]
    rw [Prod.ext_iff]
    constructor
    · simp only []
      omega
    · cases out? with
      | none => rfl
      | some out => simp only [Option.map_map, Option.map_some, List.map_cons]; rfl

theorem rows_map_idx (width k s : ℕ) :
    (((List.range' s k).flatMap
        (fun y => (List.range width).map (fun x => (x, y)))).map (idx width)) =
      List.range' (s * width) (k * width) := by
  induction k generalizing s with
  | zero => simp
  | succ k ih =>
    rw [List.range'_succ, List.flatMap_cons, List.map_append, ih (s + 1)]
    have hrow : (((List.range width).map (fun x => (x, s))).map (idx width)) =
        List.range' (s * width) width := by
      rw [List.map_map, List.range'_eq_map_range]
      refine List.map_congr_left ?_
      intro x _
      simp [idx, Nat.add_comm]
    rw [hrow]
    have := List.range'_append (s * width) width (k * width) 1
    simp only [Nat.one_mul] at this
    rw [show (s + 1) * width = s * width + width by ring, this]
    ring_nf

theorem pixelList_map_idx (width y0 y1 : ℕ) :
    (pixelList width y0 y1).map (idx width) = List.range' (y0 * width) ((y1 - y0) * width) := by
  unfold pixelList
  exact rows_map_idx width (y1 - y0) y0

theorem mem_pixelList (width y0 y1 : ℕ) (p : ℕ × ℕ)
    (hp : p ∈ pixelList width y0 y1) : p.1 < width ∧ y0 ≤ p.2 ∧ p.2 < y1 := by
  unfold pixelList at hp
  rcases List.mem_flatMap.mp hp with ⟨y, hy, hmem⟩
  rcases List.mem_map.mp hmem with ⟨x, hx, rfl⟩
  rcases List.mem_range'_1.mp hy with ⟨hy0, hy1⟩
  exact ⟨List.mem_range.mp hx, hy0, by omega⟩

theorem pixelList_append (width y0 y1 y2 : ℕ) (h01 : y0 ≤ y1) (h12 : y1 ≤ y2) :
    pixelList width y0 y1 ++ pixelList width y1 y2 = pixelList width y0 y2 := by
  unfold pixelList
  rw [← List.flatMap_append]
  congr 1
  have := List.range'_append y0 (y1 - y0) (y2 - y1) 1
  simp only [Nat.one_mul] at this
  rw [show y0 + (y1 - y0) = y1 by omega] at this
  rw [this, show y2 - y1 + (y1 - y0) = y2 - y0 by omega]

/-! ### Characterizing the comparison loops -/

theorem grayAll_eq_blockWrite (img : List ℕ) (alpha : ℚ) (len : ℕ) (out : List ℕ) :
    grayAll img alpha len out = (List.range len).foldl (blockWrite (grayF img alpha)) out := rfl

theorem imagesIdentical_self (img : List ℕ) (len : ℕ) :
    imagesIdentical img img len = true := by
  simp [imagesIdentical]

theorem pixelmatchCore_eq (img1 img2 : List ℕ) (out? : Option (List ℕ)) (width height : ℕ)
    (o : PixelmatchOptions) :
    pixelmatchCore img1 img2 out? width height o =
      if imagesIdentical img1 img2 (width * height) then
        (0, if !o.diffMask then out?.map (grayAll img1 o.alpha (width * height)) else out?)
      else
        ((pixelList width 0 height).countP (pixelCountedWith fbmpSeq img1 img2 width height o),
         out?.map (fun out =>
          ((pixelList width 0 height).map (idx width)).foldl
            (blockWrite (pixelFWith fbmpSeq img1 img2 width height o)) out)) := by
  unfold pixelmatchCore
  cases h : imagesIdentical img1 img2 (width * height) with
  | true => simp [h]
  | false =>
    simp only [h, Bool.false_eq_true, if_false]
    unfold pixelStepSeq
    rw [foldl_pixelStepWith fbmpSeq img1 img2 width height o _
      (fun p hp => (mem_pixelList width 0 height p hp).1), Nat.zero_add]

theorem workerBody_eq (img1 img2 : List ℕ) (staging : Option (List ℕ))
    (width height y0 y1 : ℕ) (o : PixelmatchOptions) :
    workerBody img1 img2 staging width height y0 y1 o =
      ((pixelList width y0 y1).countP
        (pixelCountedWith findBestMatchingPixel img1 img2 width height o),
       staging.map (fun out =>
        ((pixelList width y0 y1).map (idx width)).foldl
          (blockWrite (pixelFWith findBestMatchingPixel img1 img2 width height o)) out)) := by
  unfold workerBody pixelStepWorker
  rw [foldl_pixelStepWith findBestMatchingPixel img1 img2 width height o _
    (fun p hp => (mem_pixelList width y0 y1 p hp).1), Nat.zero_add]

/-- The in-order composition of the row bands `[i*ch, min ((i+1)*ch) h)`,
`i < n`, is the single loop over rows `[0, min (n*ch) h)`. -/
theorem nodeBands_eq (img1 img2 : List ℕ) (width height : ℕ) (o : PixelmatchOptions)
    (ch : ℕ) (staging0 : Option (List ℕ)) (n : ℕ) :
    ((List.range n).foldl
      (fun (acc : ℕ × Option (List ℕ)) i =>
        (acc.1 + (workerBody img1 img2 acc.2 width height (i * ch)
            (min ((i + 1) * ch) height) o).1,
         (workerBody img1 img2 acc.2 width height (i * ch)
            (min ((i + 1) * ch) height) o).2))
      (0, staging0)) =
      ((pixelList width 0 (min (n * ch) height)).countP
        (pixelCountedWith findBestMatchingPixel img1 img2 width height o),
       staging0.map (fun out =>
        ((pixelList width 0 (min (n * ch) height)).map (idx width)).foldl
          (blockWrite (pixelFWith findBestMatchingPixel img1 img2 width height o)) out)) := by
  induction n with
  | zero =>
    simp only [List.range_zero, List.foldl_nil, Nat.zero_mul, Nat.zero_min]
    have : pixelList width 0 0 = [] := rfl
    rw [this]
    simp
  | succ n ih =>
    rw [List.range_succ, List.foldl_append, ih, List.foldl_cons, List.foldl_nil]
    simp only [workerBody_eq]
    rcases le_or_lt (n * ch) height with hle | hlt
    · have hmin : min (n * ch) height = n * ch := Nat.min_eq_left hle
      have hb : n * ch ≤ min ((n + 1) * ch) height := by
        rcases le_or_lt ((n + 1) * ch) height with h1 | h1
        · rw [Nat.min_eq_left h1]; exact Nat.mul_le_mul_right ch (Nat.le_succ n)
        · rw [Nat.min_eq_right (Nat.le_of_lt h1)]; exact hle
      have happ := pixelList_append width 0 (n * ch) (min ((n + 1) * ch) height)
        (Nat.zero_le _) hb
      rw [hmin]
      congr 1
      · rw [← happ, List.countP_append]
      · cases staging0 with
        | none => rfl
        | some out =>
          simp only [Option.map_map, Option.map_some]
          congr 1
          funext z
          simp only [Function.comp_apply]
          rw [← List.foldl_append, ← List.map_append, happ]
    · have h1 : min (n * ch) height = height := Nat.min_eq_right (Nat.le_of_lt hlt)
      have h2 : min ((n + 1) * ch) height = height := Nat.min_eq_right
        (Nat.le_trans (Nat.le_of_lt hlt) (Nat.mul_le_mul_right ch (Nat.le_succ n)))
      have hempty : pixelList width (n * ch) height = [] := by
        unfold pixelList
        rw [show height - n * ch = 0 by omega]
        rfl
      rw [h1, h2, hempty]
      cases staging0 <;> simp

/-! ### The shift search is irrelevant when no shift window is configured -/

theorem pixelDeltaWith_noShift
    (f g : List ℕ → List ℕ → ℕ → ℕ → ℕ → ℕ → ℕ → ℕ → ℕ → WithTop ℚ)
    (img1 img2 : List ℕ) (width height : ℕ) (o : PixelmatchOptions) (p : ℕ × ℕ)
    (h1 : o.horizontalShiftPixels = 0) (h2 : o.verticalShiftPixels = 0) :
    pixelDeltaWith f img1 img2 width height o p =
      pixelDeltaWith g img1 img2 width height o p := by
  unfold pixelDeltaWith
  rw [h1, h2]
  simp

theorem pixelCountedWith_noShift
    (f g : List ℕ → List ℕ → ℕ → ℕ → ℕ → ℕ → ℕ → ℕ → ℕ → WithTop ℚ)
    (img1 img2 : List ℕ) (width height : ℕ) (o : PixelmatchOptions) (p : ℕ × ℕ)
    (h1 : o.horizontalShiftPixels = 0) (h2 : o.verticalShiftPixels = 0) :
    pixelCountedWith f img1 img2 width height o p =
      pixelCountedWith g img1 img2 width height o p := by
  unfold pixelCountedWith
  rw [pixelDeltaWith_noShift f g img1 img2 width height o p h1 h2]

theorem pixelFWith_noShift
    (f g : List ℕ → List ℕ → ℕ → ℕ → ℕ → ℕ → ℕ → ℕ → ℕ → WithTop ℚ)
    (img1 img2 : List ℕ) (width height : ℕ) (o : PixelmatchOptions) (i : ℕ)
    (h1 : o.horizontalShiftPixels = 0) (h2 : o.verticalShiftPixels = 0) :
    pixelFWith f img1 img2 width height o i = pixelFWith g img1 img2 width height o i := by
  unfold pixelFWith pixelRGBWith
  rw [pixelDeltaWith_noShift f g img1 img2 width height o _ h1 h2]

/-- With `diffMask = false` every pixel's branch writes a color. -/
theorem pixelFWith_isSome
    (f : List ℕ → List ℕ → ℕ → ℕ → ℕ → ℕ → ℕ → ℕ → ℕ → WithTop ℚ)
    (img1 img2 : List ℕ) (width height : ℕ) (o : PixelmatchOptions) (i : ℕ)
    (hmask : o.diffMask = false) :
    (pixelFWith f img1 img2 width height o i).isSome := by
  unfold pixelFWith pixelRGBWith
  rw [hmask]
  dsimp only
  split_ifs <;> simp_all

/-- `_pixelmatch_node_workers`, resolved: identical fast path, or the count
over all pixels together with replaying all band writes onto the
zero-initialised staging buffer. -/
theorem pixelmatchNodeWorkers_eq (n : ℕ) (hn : 1 ≤ n) (img1 img2 : List ℕ)
    (out? : Option (List ℕ)) (width height : ℕ) (o : PixelmatchOptions) :
    pixelmatchNodeWorkers n img1 img2 out? width height o =
      if imagesIdentical img1 img2 (width * height) then
        (0,
          if !o.diffMask then
            out?.map (grayAll img1 (if o.alpha = 0 then 0.1 else o.alpha) (width * height))
          else out?)
      else
        ((pixelList width 0 height).countP
          (pixelCountedWith findBestMatchingPixel img1 img2 width height o),
         out?.map (fun out =>
          ((pixelList width 0 height).map (idx width)).foldl
            (blockWrite (pixelFWith findBestMatchingPixel img1 img2 width height o))
            (List.replicate out.length 0))) := by
  unfold pixelmatchNodeWorkers
  cases hid : imagesIdentical img1 img2 (width * height) with
  | true => simp [hid]
  | false =>
    simp only [hid, Bool.false_eq_true, if_false]
    have hch : height ≤ n * ((height + n - 1) / n) := by
      have h1 := Nat.div_add_mod (height + n - 1) n
      have h2 : (height + n - 1) % n < n := Nat.mod_lt _ (by omega)
      set q := (height + n - 1) / n with hq
      set r := (height + n - 1) % n with hr
      set m := n * q with hm
      omega
    have hmin : min (n * ((height + n - 1) / n)) height = height :=
      Nat.min_eq_right hch
    rw [nodeBands_eq img1 img2 width height o ((height + n - 1) / n) _ n, hmin]
    cases out? with
    | none => rfl
    | some out => rfl

/-- **C1 (amended).**  With no shift window configured
(`horizontalShiftPixels = verticalShiftPixels = 0`), `diffMask = false`
and a nonzero `alpha`, the sequential `pixelmatch` of `src/index.ts` and
the band/worker `_pixelmatch_node_workers` of `src/node/index.ts` are
observably equivalent for every band count `n ≥ 1`: same diff count and
bit-identical output contents. -/
theorem claim1_parallel_sequential_equiv (img1 img2 : List ℕ) (out? : Option (List ℕ))
    (width height n : ℕ) (o : PixelmatchOptions) (hn : 1 ≤ n)
    (hout : ∀ out ∈ out?, out.length = width * height * 4)
    (hs1 : o.horizontalShiftPixels = 0) (hs2 : o.verticalShiftPixels = 0)
    (hmask : o.diffMask = false) (halpha : o.alpha ≠ 0) :
    pixelmatchNodeWorkers n img1 img2 out? width height o =
      pixelmatchCore img1 img2 out? width height o := by
  rw [pixelmatchNodeWorkers_eq n hn img1 img2 out? width height o, pixelmatchCore_eq]
  cases hid : imagesIdentical img1 img2 (width * height) with
  | true => simp [hid, halpha]
  | false =>
    simp only [hid, Bool.false_eq_true, if_false]
    congr 1
    · exact List.countP_congr (fun p _ => by
        rw [pixelCountedWith_noShift findBestMatchingPixel fbmpSeq img1 img2 width height o p
          hs1 hs2])
    · cases out? with
      | none => rfl
      | some out =>
        simp only [Option.map_some']
        congr 1
        have hlen : out.length = width * height * 4 := hout out rfl
        have hnodup : ((pixelList width 0 height).map (idx width)).Nodup := by
          rw [pixelList_map_idx]
          exact List.nodup_range' _ _
        have hlenW := length_foldl_blockWrite
          (pixelFWith findBestMatchingPixel img1 img2 width height o)
          ((pixelList width 0 height).map (idx width)) (List.replicate out.length 0)
        have hlenS := length_foldl_blockWrite
          (pixelFWith fbmpSeq img1 img2 width height o)
          ((pixelList width 0 height).map (idx width)) out
        refine List.ext_getElem ?_ ?_
        · rw [hlenW, hlenS, List.length_replicate]
        · intro j hj1 hj2
          have hjo : j < out.length := by
            rw [hlenW, List.length_replicate] at hj1
            exact hj1
          rw [← List.getD_eq_getElem _ 0 hj1, ← List.getD_eq_getElem _ 0 hj2]
          rw [getD_foldl_blockWrite _ _ hnodup _ j (by rw [List.length_replicate]; exact hjo),
            getD_foldl_blockWrite _ _ hnodup _ j hjo]
          have hmem : j / 4 ∈ (pixelList width 0 height).map (idx width) := by
            rw [pixelList_map_idx]
            rw [List.mem_range'_1]
            have hj4 : j < width * height * 4 := by rw [← hlen]; exact hjo
            constructor
            · omega
            · simp only [Nat.sub_zero, Nat.zero_mul, Nat.zero_add]
              rw [Nat.mul_comm height width]
              omega
          rw [if_pos ⟨hmem, pixelFWith_isSome findBestMatchingPixel img1 img2 width height o _
              hmask⟩,
            if_pos ⟨hmem, pixelFWith_isSome fbmpSeq img1 img2 width height o _ hmask⟩]
          unfold writtenByte
          rw [pixelFWith_noShift findBestMatchingPixel fbmpSeq img1 img2 width height o _
            hs1 hs2]

/-! ### Full overwrite, gray rendering, and opaque writes -/

/-- A fold of block writes that covers every byte position is independent
of the initial buffer contents. -/
theorem blockWrite_fold_ext (f : ℕ → Option (ℚ × ℚ × ℚ)) (L : List ℕ) (hL : L.Nodup)
    (out1 out2 : List ℕ) (hlen : out1.length = out2.length)
    (hcov : ∀ j < out1.length, j / 4 ∈ L ∧ ((f (j / 4)).isSome : Prop)) :
    L.foldl (blockWrite f) out1 = L.foldl (blockWrite f) out2 := by
  have h1 := length_foldl_blockWrite f L out1
  have h2 := length_foldl_blockWrite f L out2
  refine List.ext_getElem (by rw [h1, h2, hlen]) ?_
  intro j hj1 hj2
  have hjo1 : j < out1.length := by rw [← h1]; exact hj1
  have hjo2 : j < out2.length := by rw [← h2]; exact hj2
  rw [← List.getD_eq_getElem _ 0 hj1, ← List.getD_eq_getElem _ 0 hj2,
    getD_foldl_blockWrite f L hL out1 j hjo1, getD_foldl_blockWrite f L hL out2 j hjo2,
    if_pos (hcov j hjo1), if_pos (hcov j hjo1)]

/-- Pixels of the covered range are painted by the fold of a
`pixelList`-indexed run. -/
theorem pixel_cov (width height : ℕ) (j len4 : ℕ) (hlen4 : len4 = width * height * 4)
    (hj : j < len4) : j / 4 ∈ (pixelList width 0 height).map (idx width) := by
  subst hlen4
  rw [pixelList_map_idx, List.mem_range'_1]
  constructor
  · omega
  · simp only [Nat.sub_zero, Nat.zero_mul, Nat.zero_add]
    rw [Nat.mul_comm height width]
    omega

/-- **C3 (amended).**  When `diffMask = false`, the sequential `pixelmatch`
fully overwrites the output buffer: its final contents are independent of
the contents the caller passed in (every pixel position is written by the
single branch taken for it). -/
theorem claim3_full_overwrite (img1 img2 out1 out2 : List ℕ) (width height : ℕ)
    (o : PixelmatchOptions) (hmask : o.diffMask = false)
    (hlen1 : out1.length = width * height * 4) (hlen2 : out2.length = width * height * 4) :
    (pixelmatchCore img1 img2 (some out1) width height o).2 =
      (pixelmatchCore img1 img2 (some out2) width height o).2 := by
  rw [pixelmatchCore_eq, pixelmatchCore_eq]
  cases hid : imagesIdentical img1 img2 (width * height) with
  | true =>
    simp only [if_pos rfl, hmask, Bool.not_false, if_pos, Option.map_some']
    congr 1
    rw [grayAll_eq_blockWrite, grayAll_eq_blockWrite]
    refine blockWrite_fold_ext _ _ (List.nodup_range _) out1 out2 (by omega) ?_
    intro j hj
    refine ⟨List.mem_range.mpr (by omega), ?_⟩
    simp [grayF]
  | false =>
    simp only [Bool.false_eq_true, if_false, Option.map_some']
    congr 1
    refine blockWrite_fold_ext _ _ ?_ out1 out2 (by omega) ?_
    · rw [pixelList_map_idx]
      exact List.nodup_range' _ _
    · intro j hj
      exact ⟨pixel_cov width height j out1.length hlen1 hj,
        pixelFWith_isSome fbmpSeq img1 img2 width height o _ hmask⟩

/-- The gray rendering leaves the white-blended grayscale of pixel `j/4`
at byte `j`. -/
theorem grayAll_getD (img : List ℕ) (alpha : ℚ) (len : ℕ) (out : List ℕ) (j : ℕ)
    (hj : j < out.length) (hcov : j / 4 < len) :
    (grayAll img alpha len out).getD j 0 = writtenByte (grayF img alpha) j := by
  rw [grayAll_eq_blockWrite, getD_foldl_blockWrite _ _ (List.nodup_range _) out j hj,
    if_pos ⟨List.mem_range.mpr hcov, by simp [grayF]⟩]

theorem writtenByte_grayF (img : List ℕ) (alpha : ℚ) (i c : ℕ) (hc : c < 4) :
    writtenByte (grayF img alpha) (4 * i + c) =
      if c = 3 then 255 else jsToUint8 (grayValue img (4 * i) alpha) := by
  unfold writtenByte grayF
  have hdiv : (4 * i + c) / 4 = i := by omega
  have hmod : (4 * i + c) % 4 = c := by omega
  rw [hdiv, hmod]
  rcases (by omega : c = 0 ∨ c = 1 ∨ c = 2 ∨ c = 3) with rfl | rfl | rfl | rfl <;>
    simp [jsToUint8_255]

/-- The gray rendering paints pixel `i` with the white-blend of the
source pixel on all three color bytes and 255 on the alpha byte. -/
theorem grayAll_pixel (img : List ℕ) (alpha : ℚ) (len : ℕ) (out : List ℕ) (i : ℕ)
    (hi : i < len) (hlen : out.length = len * 4) :
    (grayAll img alpha len out).getD (4 * i) 0 = jsToUint8 (grayValue img (4 * i) alpha) ∧
    (grayAll img alpha len out).getD (4 * i + 1) 0 =
      jsToUint8 (grayValue img (4 * i) alpha) ∧
    (grayAll img alpha len out).getD (4 * i + 2) 0 =
      jsToUint8 (grayValue img (4 * i) alpha) ∧
    (grayAll img alpha len out).getD (4 * i + 3) 0 = 255 := by
  refine ⟨?_, ?_, ?_, ?_⟩
  all_goals
    rw [grayAll_getD img alpha len out _ (by omega) (by omega)]
  · rw [show 4 * i = 4 * i + 0 by omega, writtenByte_grayF img alpha i 0 (by omega)]
    rfl
  · rw [writtenByte_grayF img alpha i 1 (by omega)]
    rfl
  · rw [writtenByte_grayF img alpha i 2 (by omega)]
    rfl
  · rw [writtenByte_grayF img alpha i 3 (by omega)]
    rfl

/-- **C4 (amended).**  On bit-identical inputs both the sequential
`pixelmatch` and the band/worker `_pixelmatch_node_workers` return diff
count 0 for every options record; when an output buffer is supplied and
`diffMask` is false, the sequential path writes every output pixel as the
white-blended grayscale of the corresponding `img1` pixel with blend
factor the `alpha` option, while the node fast path blends with
`options.alpha || 0.1` — the `alpha` option except that a zero alpha is
replaced by the default `0.1`.  All writes carry alpha byte 255. -/
theorem claim4_identical (img : List ℕ) (out? : Option (List ℕ)) (width height n : ℕ)
    (o : PixelmatchOptions) (hn : 1 ≤ n)
    (hout : ∀ out ∈ out?, out.length = width * height * 4) :
    (pixelmatchCore img img out? width height o).1 = 0 ∧
    (pixelmatchNodeWorkers n img img out? width height o).1 = 0 ∧
    (o.diffMask = false → ∀ out ∈ out?, ∀ i < width * height,
      (∃ out', (pixelmatchCore img img out? width height o).2 = some out' ∧
        out'.getD (4 * i) 0 = jsToUint8 (grayValue img (4 * i) o.alpha) ∧
        out'.getD (4 * i + 1) 0 = jsToUint8 (grayValue img (4 * i) o.alpha) ∧
        out'.getD (4 * i + 2) 0 = jsToUint8 (grayValue img (4 * i) o.alpha) ∧
        out'.getD (4 * i + 3) 0 = 255) ∧
      (∃ out', (pixelmatchNodeWorkers n img img out? width height o).2 = some out' ∧
        out'.getD (4 * i) 0 =
          jsToUint8 (grayValue img (4 * i) (if o.alpha = 0 then 0.1 else o.alpha)) ∧
        out'.getD (4 * i + 1) 0 =
          jsToUint8 (grayValue img (4 * i) (if o.alpha = 0 then 0.1 else o.alpha)) ∧
        out'.getD (4 * i + 2) 0 =
          jsToUint8 (grayValue img (4 * i) (if o.alpha = 0 then 0.1 else o.alpha)) ∧
        out'.getD (4 * i + 3) 0 = 255)) := by
  rw [pixelmatchCore_eq, if_pos (imagesIdentical_self img (width * height)),
    pixelmatchNodeWorkers_eq n hn img img out? width height o,
    if_pos (imagesIdentical_self img (width * height))]
  refine ⟨rfl, rfl, ?_⟩
  intro hmask out hmem i hi
  rcases out? with _ | out0
  · cases hmem
  · cases hmem
    have hlen : out.length = width * height * 4 := hout out rfl
    constructor
    · obtain ⟨g0, g1, g2, g3⟩ :=
        grayAll_pixel img o.alpha (width * height) out i hi (by omega)
      exact ⟨grayAll img o.alpha (width * height) out, by rw [hmask]; rfl, g0, g1, g2, g3⟩
    · obtain ⟨g0, g1, g2, g3⟩ :=
        grayAll_pixel img (if o.alpha = 0 then 0.1 else o.alpha) (width * height) out i hi
          (by omega)
      exact ⟨grayAll img (if o.alpha = 0 then 0.1 else o.alpha) (width * height) out,
        by rw [hmask]; rfl, g0, g1, g2, g3⟩

/-- **C4 (counterexample).**  Identical black 1×1 inputs with the legal
option `alpha = 0` through the cited `_pixelmatch_node_workers` path:
its fast path blends with `options.alpha || 0.1`, so the written gray
byte is `229` (blend factor `0.1` on black) instead of the `255` the
claimed blend with the `alpha` option (factor `0`) would produce. -/
theorem claim4_counterexample :
    (pixelmatchNodeWorkers 1 [0, 0, 0, 255] [0, 0, 0, 255] (some [1, 2, 3, 4]) 1 1
        ⟨0.1, false, 0, (255, 255, 0), (255, 0, 0), none, false, 0, 0⟩).1 = 0 ∧
    ((pixelmatchNodeWorkers 1 [0, 0, 0, 255] [0, 0, 0, 255] (some [1, 2, 3, 4]) 1 1
        ⟨0.1, false, 0, (255, 255, 0), (255, 0, 0), none, false, 0, 0⟩).2.getD []).getD 0 0
      = 229 ∧
    jsToUint8 (grayValue [0, 0, 0, 255] 0 (0 : ℚ)) = 255 ∧
    ((pixelmatchNodeWorkers 1 [0, 0, 0, 255] [0, 0, 0, 255] (some [1, 2, 3, 4]) 1 1
        ⟨0.1, false, 0, (255, 255, 0), (255, 0, 0), none, false, 0, 0⟩).2.getD []).getD 0 0
      ≠ jsToUint8 (grayValue [0, 0, 0, 255] 0 (0 : ℚ)) := by
  have hfl : (⌊(459 / 2 : ℚ)⌋ : ℤ) = 229 := by
    rw [Int.floor_eq_iff]
    norm_num
  have h1 : (pixelmatchNodeWorkers 1 [0, 0, 0, 255] [0, 0, 0, 255] (some [1, 2, 3, 4]) 1 1
      ⟨0.1, false, 0, (255, 255, 0), (255, 0, 0), none, false, 0, 0⟩).1 = 0 := by
    norm_num [pixelmatchNodeWorkers, imagesIdentical, a32, px, List.range_succ]
  have h2 : ((pixelmatchNodeWorkers 1 [0, 0, 0, 255] [0, 0, 0, 255] (some [1, 2, 3, 4]) 1 1
      ⟨0.1, false, 0, (255, 255, 0), (255, 0, 0), none, false, 0, 0⟩).2.getD []).getD 0 0
      = 229 := by
    norm_num [pixelmatchNodeWorkers, imagesIdentical, a32, px, List.range_succ, grayAll,
      drawGrayPixel, grayValue, drawPixel, jsToUint8, ratTrunc, hfl]
    decide
  have h3 : jsToUint8 (grayValue [0, 0, 0, 255] 0 (0 : ℚ)) = 255 := by
    norm_num [jsToUint8, ratTrunc, grayValue, px]
    decide
  refine ⟨h1, h2, h3, ?_⟩
  rw [h2, h3]
  decide

/-- Every write of a block-write fold stores 255 in the alpha byte. -/
theorem getD_foldl_blockWrite_alpha (f : ℕ → Option (ℚ × ℚ × ℚ)) (L : List ℕ)
    (out : List ℕ) (j : ℕ) (hj4 : j % 4 = 3) :
    (L.foldl (blockWrite f) out).getD j 0 = out.getD j 0 ∨
      (L.foldl (blockWrite f) out).getD j 0 = 255 := by
  induction L generalizing out with
  | nil => exact Or.inl rfl
  | cons i R ih =>
    rw [List.foldl_cons]
    rcases ih (blockWrite f out i) with h | h
    · rw [h]
      unfold blockWrite
      cases f i with
      | none => exact Or.inl rfl
      | some c =>
        rw [getD_drawPixel]
        split_ifs with h1 h2 h3 h4 <;> first
          | (exact Or.inl rfl)
          | omega
          | (right; exact jsToUint8_255)
    · exact Or.inr h

/-- **C10.**  Every pixel the comparison writes into the output buffer has
its alpha byte set to 255: after a run, each alpha byte either still holds
the caller's original value (position not written) or holds 255. -/
theorem claim10_opaque_writes (img1 img2 out : List ℕ) (width height : ℕ)
    (o : PixelmatchOptions) (j : ℕ) (hj4 : j % 4 = 3) :
    ((pixelmatchCore img1 img2 (some out) width height o).2.getD out).getD j 0 =
        out.getD j 0 ∨
      ((pixelmatchCore img1 img2 (some out) width height o).2.getD out).getD j 0 = 255 := by
  rw [pixelmatchCore_eq]
  cases hid : imagesIdentical img1 img2 (width * height) with
  | true =>
    cases hdm : o.diffMask with
    | false =>
      simp only [if_pos rfl, hdm, Bool.not_false, if_pos, Option.map_some', Option.getD_some]
      rw [grayAll_eq_blockWrite]
      exact getD_foldl_blockWrite_alpha _ _ out j hj4
    | true => simp [hdm]
  | false =>
    simp only [Bool.false_eq_true, if_false, Option.map_some', Option.getD_some]
    exact getD_foldl_blockWrite_alpha _ _ out j hj4

/-! ### Threshold monotonicity -/

theorem delta_mono (F : WithTop ℚ) (d0 md1 md2 : ℚ) (hmd : md1 ≤ md2) (cfg : Prop)
    [Decidable cfg]
    (h : absT (if (d0 > md2 ∨ d0 < -1 * md2) ∧ cfg then F else ((d0 : ℚ) : WithTop ℚ)) >
      ((md2 : ℚ) : WithTop ℚ)) :
    absT (if (d0 > md1 ∨ d0 < -1 * md1) ∧ cfg then F else ((d0 : ℚ) : WithTop ℚ)) >
      ((md1 : ℚ) : WithTop ℚ) := by
  have hcoe : ((md1 : ℚ) : WithTop ℚ) ≤ ((md2 : ℚ) : WithTop ℚ) := by
    exact_mod_cast hmd
  by_cases h2 : (d0 > md2 ∨ d0 < -1 * md2) ∧ cfg
  · rw [if_pos h2] at h
    have h1 : (d0 > md1 ∨ d0 < -1 * md1) ∧ cfg := by
      refine ⟨?_, h2.2⟩
      rcases h2.1 with hgt | hlt
      · exact Or.inl (lt_of_le_of_lt hmd hgt)
      · refine Or.inr (lt_of_lt_of_le hlt ?_)
        nlinarith
    rw [if_pos h1]
    exact lt_of_le_of_lt hcoe h
  · rw [if_neg h2] at h
    rw [absT_coe] at h
    have habs : md2 < |d0| := WithTop.coe_lt_coe.mp h
    have htrig : d0 > md2 ∨ d0 < -1 * md2 := by
      rcases lt_abs.mp habs with h' | h'
      · exact Or.inl h'
      · right; linarith
    have hncfg : ¬ cfg := fun hcfg => h2 ⟨htrig, hcfg⟩
    rw [if_neg (fun hc => hncfg (And.right hc)), absT_coe]
    exact WithTop.coe_lt_coe.mpr (lt_of_le_of_lt hmd habs)

theorem ite_true_of (C : Prop) [Decidable C] (b : Bool)
    (h : (if C then b else false) = true) : C ∧ b = true := by
  split_ifs at h with hc
  exact ⟨hc, h⟩

/-- Raising the threshold can only shrink the set of pixels whose final
delta exceeds it. -/
theorem pixelDelta_mono
    (fbmp : List ℕ → List ℕ → ℕ → ℕ → ℕ → ℕ → ℕ → ℕ → ℕ → WithTop ℚ)
    (img1 img2 : List ℕ) (width height : ℕ) (o : PixelmatchOptions) (t1 t2 : ℚ)
    (h0 : 0 ≤ t1) (h12 : t1 ≤ t2) (p : ℕ × ℕ)
    (h : absT (pixelDeltaWith fbmp img1 img2 width height { o with threshold := t2 } p) >
      ((35215 * t2 * t2 : ℚ) : WithTop ℚ)) :
    absT (pixelDeltaWith fbmp img1 img2 width height { o with threshold := t1 } p) >
      ((35215 * t1 * t1 : ℚ) : WithTop ℚ) := by
  have hmd : 35215 * t1 * t1 ≤ 35215 * t2 * t2 := by nlinarith
  unfold pixelDeltaWith at h ⊢
  dsimp only at h ⊢
  exact delta_mono _ _ _ _ hmd _ h

/-- Raising the threshold can only turn counted pixels into uncounted
ones. -/
theorem pixelCountedWith_mono
    (fbmp : List ℕ → List ℕ → ℕ → ℕ → ℕ → ℕ → ℕ → ℕ → ℕ → WithTop ℚ)
    (img1 img2 : List ℕ) (width height : ℕ) (o : PixelmatchOptions) (t1 t2 : ℚ)
    (h0 : 0 ≤ t1) (h12 : t1 ≤ t2) (p : ℕ × ℕ)
    (h : pixelCountedWith fbmp img1 img2 width height { o with threshold := t2 } p = true) :
    pixelCountedWith fbmp img1 img2 width height { o with threshold := t1 } p = true := by
  unfold pixelCountedWith at h ⊢
  dsimp only at h ⊢
  obtain ⟨hC2, hA⟩ := ite_true_of _ _ h
  rw [if_pos (pixelDelta_mono fbmp img1 img2 width height o t1 t2 h0 h12 p hC2)]
  exact hA

/-- **C6.**  For fixed images, dimensions, output choice and all other
options, the diff count of the sequential `pixelmatch` is non-increasing
in the threshold: `t1 ≤ t2` in `[0, 1]` gives `count t2 ≤ count t1`. -/
theorem claim6_threshold_monotone (img1 img2 : List ℕ) (out? : Option (List ℕ))
    (width height : ℕ) (o : PixelmatchOptions) (t1 t2 : ℚ)
    (h0 : 0 ≤ t1) (h12 : t1 ≤ t2) (h21 : t2 ≤ 1) :
    (pixelmatchCore img1 img2 out? width height { o with threshold := t2 }).1 ≤
      (pixelmatchCore img1 img2 out? width height { o with threshold := t1 }).1 := by
  rw [pixelmatchCore_eq, pixelmatchCore_eq]
  cases hid : imagesIdentical img1 img2 (width * height) with
  | true => simp [hid]
  | false =>
    simp only [hid, Bool.false_eq_true, if_false]
    exact List.countP_mono_left (fun p _ h =>
      pixelCountedWith_mono fbmpSeq img1 img2 width height o t1 t2 h0 h12 p h)

/-! ### Sign and symmetry of the color metric -/

theorem yiq_sign_pos (y i q : ℚ) (hy : y > 0)
    (h : -(0.5053 * y * y + 0.299 * i * i + 0.1957 * q * q) ≠ 0) :
    (-(0.5053 * y * y + 0.299 * i * i + 0.1957 * q * q) < 0 ↔ 0 < y) := by
  have hnn : 0 ≤ 0.5053 * y * y + 0.299 * i * i + 0.1957 * q * q := by
    nlinarith [mul_self_nonneg y, mul_self_nonneg i, mul_self_nonneg q]
  have hne : 0.5053 * y * y + 0.299 * i * i + 0.1957 * q * q ≠ 0 :=
    fun he => h (by rw [he]; ring)
  have hpos := lt_of_le_of_ne hnn (Ne.symm hne)
  exact iff_of_true (by linarith) hy

theorem yiq_sign_neg (y i q : ℚ) (hy : ¬ y > 0)
    (h : (0.5053 * y * y + 0.299 * i * i + 0.1957 * q * q) ≠ 0) :
    ((0.5053 * y * y + 0.299 * i * i + 0.1957 * q * q) < 0 ↔ 0 < y) := by
  have hnn : 0 ≤ 0.5053 * y * y + 0.299 * i * i + 0.1957 * q * q := by
    nlinarith [mul_self_nonneg y, mul_self_nonneg i, mul_self_nonneg q]
  exact iff_of_false (not_lt.mpr hnn) hy

/-- **C2 (amended).**  A nonzero `colorDelta(img1, img2, k, m, false)` is
negative exactly when the luminance difference `Y` (first pixel minus
second pixel, i.e. `colorDelta` in `yOnly` mode) is positive — that is,
when the second pixel is the *darker* one; for `Y = 0` a nonzero result is
positive. -/
theorem claim2_sign (img1 img2 : List ℕ) (k m : ℕ)
    (h : colorDelta img1 img2 k m false ≠ 0) :
    (colorDelta img1 img2 k m false < 0 ↔ 0 < colorDelta img1 img2 k m true) := by
  unfold colorDelta at h ⊢
  simp only [Bool.false_eq_true, if_false, if_true] at h ⊢
  split_ifs at h ⊢ with h0 hbl hy hy2
  · exact absurd rfl h
  · exact yiq_sign_pos _ _ _ hy h
  · exact yiq_sign_neg _ _ _ hy h
  · exact yiq_sign_pos _ _ _ hy2 h
  · exact yiq_sign_neg _ _ _ hy2 h

theorem abs_signed (y d : ℚ) : |if y > 0 then -d else d| = |d| := by
  split_ifs <;> simp [abs_neg]

/-- **C8.**  For two fully opaque pixels the magnitude of `colorDelta` is
stable under swapping which image is first. -/
theorem claim8_swap_magnitude (img1 img2 : List ℕ) (k m : ℕ)
    (h1 : img1.getD (k + 3) 0 = 255) (h2 : img2.getD (m + 3) 0 = 255) :
    |colorDelta img1 img2 k m false| = |colorDelta img2 img1 m k false| := by
  have ha1 : px img1 (k + 3) = 255 := by rw [px, h1]; norm_num
  have ha2 : px img2 (m + 3) = 255 := by rw [px, h2]; norm_num
  unfold colorDelta
  simp only [Bool.false_eq_true, if_false]
  rw [ha1, ha2]
  have hblend : ¬ ((255 : ℚ) < 255 ∨ (255 : ℚ) < 255) := by norm_num
  rw [if_neg hblend, if_neg hblend, if_neg hblend, if_neg hblend, if_neg hblend,
    if_neg hblend]
  have hziff : (px img1 k - px img2 m = 0 ∧ px img1 (k + 1) - px img2 (m + 1) = 0 ∧
      px img1 (k + 2) - px img2 (m + 2) = 0 ∧ (255 : ℚ) - 255 = 0) ↔
      (px img2 m - px img1 k = 0 ∧ px img2 (m + 1) - px img1 (k + 1) = 0 ∧
      px img2 (m + 2) - px img1 (k + 2) = 0 ∧ (255 : ℚ) - 255 = 0) := by
    constructor <;> rintro ⟨e1, e2, e3, e4⟩ <;>
      exact ⟨by linarith, by linarith, by linarith, by linarith⟩
  by_cases hz : px img1 k - px img2 m = 0 ∧ px img1 (k + 1) - px img2 (m + 1) = 0 ∧
      px img1 (k + 2) - px img2 (m + 2) = 0 ∧ (255 : ℚ) - 255 = 0
  · rw [if_pos hz, if_pos (hziff.mp hz)]
  · rw [if_neg hz, if_neg (fun hz2 => hz (hziff.mpr hz2))]
    rw [abs_signed, abs_signed]
    congr 1
    ring

/-! ### The anti-aliasing classifier's early-false conditions -/

theorem aaLoop_none_of_many (img : List ℕ) (width pos : ℕ) (L : List (ℕ × ℕ))
    (st : AAState) (hst : st.zeroes ≤ 2)
    (hcnt : st.zeroes + L.countP (fun q => decide (aaDelta img width pos q = 0)) > 2) :
    aaLoop img width pos L st = none := by
  induction L generalizing st with
  | nil => simp at hcnt; omega
  | cons q R ih =>
    rcases q with ⟨x, y⟩
    rw [List.countP_cons] at hcnt
    simp only [decide_eq_true_eq] at hcnt
    simp only [aaLoop]
    split_ifs with hz hlim hdk hbr
    · rfl
    · have hz' : aaDelta img width pos (x, y) = 0 := by simpa [aaDelta] using hz
      rw [if_pos hz'] at hcnt
      refine ih _ (by simpa using hlim) ?_
      simp only [AAState.zeroes]
      omega
    · have hz' : ¬ aaDelta img width pos (x, y) = 0 := by simpa [aaDelta] using hz
      rw [if_neg hz'] at hcnt
      refine ih _ hst ?_
      simp only [AAState.zeroes]
      omega
    · have hz' : ¬ aaDelta img width pos (x, y) = 0 := by simpa [aaDelta] using hz
      rw [if_neg hz'] at hcnt
      refine ih _ hst ?_
      simp only [AAState.zeroes]
      omega
    · have hz' : ¬ aaDelta img width pos (x, y) = 0 := by simpa [aaDelta] using hz
      rw [if_neg hz'] at hcnt
      refine ih _ hst ?_
      omega

theorem aaLoop_some_zeroes (img : List ℕ) (width pos : ℕ) (L : List (ℕ × ℕ))
    (st st' : AAState) (h : aaLoop img width pos L st = some st') :
    st'.zeroes = st.zeroes + L.countP (fun q => decide (aaDelta img width pos q = 0)) ∧
      (st.zeroes ≤ 2 → st'.zeroes ≤ 2) := by
  induction L generalizing st with
  | nil =>
    simp only [aaLoop] at h
    cases h
    simp
  | cons q R ih =>
    rcases q with ⟨x, y⟩
    rw [List.countP_cons]
    simp only [decide_eq_true_eq]
    simp only [aaLoop] at h
    split_ifs at h with hz hlim hdk hbr
    · obtain ⟨h1, h2⟩ := ih _ h
      simp only [AAState.zeroes] at h1 h2
      have hz' : aaDelta img width pos (x, y) = 0 := by simpa [aaDelta] using hz
      rw [if_pos hz']
      constructor
      · omega
      · intro _
        exact h2 (by omega)
    · obtain ⟨h1, h2⟩ := ih _ h
      simp only [AAState.zeroes] at h1 h2
      have hz' : ¬ aaDelta img width pos (x, y) = 0 := by simpa [aaDelta] using hz
      rw [if_neg hz']
      exact ⟨by omega, fun hle => h2 hle⟩
    · obtain ⟨h1, h2⟩ := ih _ h
      simp only [AAState.zeroes] at h1 h2
      have hz' : ¬ aaDelta img width pos (x, y) = 0 := by simpa [aaDelta] using hz
      rw [if_neg hz']
      exact ⟨by omega, fun hle => h2 hle⟩
    · obtain ⟨h1, h2⟩ := ih _ h
      have hz' : ¬ aaDelta img width pos (x, y) = 0 := by simpa [aaDelta] using hz
      rw [if_neg hz']
      exact ⟨by omega, fun hle => h2 hle⟩

theorem aaLoop_darkest_zero (img : List ℕ) (width pos : ℕ) (L : List (ℕ × ℕ))
    (st st' : AAState) (hd : st.darkest = 0)
    (hall : ∀ q ∈ L, 0 ≤ aaDelta img width pos q)
    (h : aaLoop img width pos L st = some st') : st'.darkest = 0 := by
  induction L generalizing st with
  | nil =>
    simp only [aaLoop] at h
    cases h
    exact hd
  | cons q R ih =>
    rcases q with ⟨x, y⟩
    simp only [aaLoop] at h
    have hallR : ∀ r ∈ R, 0 ≤ aaDelta img width pos r :=
      fun r hr => hall r (List.mem_cons_of_mem _ hr)
    split_ifs at h with hz hlim hdk hbr
    · exact ih { st with zeroes := st.zeroes + 1 } hd hallR h
    · exact absurd hdk (by
        rw [hd]
        have := hall (x, y) (List.mem_cons_self _ _)
        simp only [aaDelta] at this
        exact not_lt.mpr this)
    · exact ih { st with brightest := _, maxX := x, maxY := y } hd hallR h
    · exact ih st hd hallR h

theorem aaLoop_brightest_zero (img : List ℕ) (width pos : ℕ) (L : List (ℕ × ℕ))
    (st st' : AAState) (hb : st.brightest = 0)
    (hall : ∀ q ∈ L, aaDelta img width pos q ≤ 0)
    (h : aaLoop img width pos L st = some st') : st'.brightest = 0 := by
  induction L generalizing st with
  | nil =>
    simp only [aaLoop] at h
    cases h
    exact hb
  | cons q R ih =>
    rcases q with ⟨x, y⟩
    simp only [aaLoop] at h
    have hallR : ∀ r ∈ R, aaDelta img width pos r ≤ 0 :=
      fun r hr => hall r (List.mem_cons_of_mem _ hr)
    split_ifs at h with hz hlim hdk hbr
    · exact ih { st with zeroes := st.zeroes + 1 } hb hallR h
    · exact ih { st with darkest := _, minX := x, minY := y } hb hallR h
    · exact absurd hbr (by
        rw [hb]
        have := hall (x, y) (List.mem_cons_self _ _)
        simp only [aaDelta] at this
        exact not_lt.mpr this)
    · exact ih st hb hallR h

theorem aaLoop_darkest_neg (img : List ℕ) (width pos : ℕ) (L : List (ℕ × ℕ))
    (st st' : AAState) (hd : st.darkest = 0)
    (h : aaLoop img width pos L st = some st') (hne : st'.darkest ≠ 0) :
    ∃ q ∈ L, aaDelta img width pos q < 0 := by
  induction L generalizing st with
  | nil =>
    simp only [aaLoop] at h
    cases h
    exact absurd hd hne
  | cons q R ih =>
    rcases q with ⟨x, y⟩
    simp only [aaLoop] at h
    split_ifs at h with hz hlim hdk hbr
    · obtain ⟨r, hr, hlt⟩ := ih { st with zeroes := st.zeroes + 1 } hd h
      exact ⟨r, List.mem_cons_of_mem _ hr, hlt⟩
    · refine ⟨(x, y), List.mem_cons_self _ _, ?_⟩
      rw [hd] at hdk
      simpa [aaDelta] using hdk
    · obtain ⟨r, hr, hlt⟩ := ih { st with brightest := _, maxX := x, maxY := y } hd h
      exact ⟨r, List.mem_cons_of_mem _ hr, hlt⟩
    · obtain ⟨r, hr, hlt⟩ := ih st hd h
      exact ⟨r, List.mem_cons_of_mem _ hr, hlt⟩

theorem aaLoop_brightest_pos (img : List ℕ) (width pos : ℕ) (L : List (ℕ × ℕ))
    (st st' : AAState) (hb : st.brightest = 0)
    (h : aaLoop img width pos L st = some st') (hne : st'.brightest ≠ 0) :
    ∃ q ∈ L, 0 < aaDelta img width pos q := by
  induction L generalizing st with
  | nil =>
    simp only [aaLoop] at h
    cases h
    exact absurd hb hne
  | cons q R ih =>
    rcases q with ⟨x, y⟩
    simp only [aaLoop] at h
    split_ifs at h with hz hlim hdk hbr
    · obtain ⟨r, hr, hlt⟩ := ih { st with zeroes := st.zeroes + 1 } hb h
      exact ⟨r, List.mem_cons_of_mem _ hr, hlt⟩
    · obtain ⟨r, hr, hlt⟩ := ih { st with darkest := _, minX := x, minY := y } hb h
      exact ⟨r, List.mem_cons_of_mem _ hr, hlt⟩
    · refine ⟨(x, y), List.mem_cons_self _ _, ?_⟩
      rw [hb] at hbr
      simpa [aaDelta] using hbr
    · obtain ⟨r, hr, hlt⟩ := ih st hb h
      exact ⟨r, List.mem_cons_of_mem _ hr, hlt⟩

/-- **C9.**  `antialiased` returns `false` whenever more than 2 neighbors
are luminance-equal to the center (counting the edge bonus), and whenever
no neighbor is strictly brighter (all deltas `≥ 0`, i.e. no darker... the
deltas are center-minus-neighbor) or no neighbor is strictly darker (all
deltas `≤ 0`); it can return `true` only when neighbors with both signs
exist and at most 2 equal neighbors were counted. -/
theorem claim9_antialiased_conditions (img aImg bImg : List ℕ) (x1 y1 width height : ℕ) :
    (aaEdgeBonus x1 y1 width height +
        (aaNeighborDeltas img x1 y1 width height).countP (fun d => decide (d = 0)) > 2 →
      antialiased img x1 y1 width height aImg bImg = false) ∧
    ((∀ d ∈ aaNeighborDeltas img x1 y1 width height, 0 ≤ d) →
      antialiased img x1 y1 width height aImg bImg = false) ∧
    ((∀ d ∈ aaNeighborDeltas img x1 y1 width height, d ≤ 0) →
      antialiased img x1 y1 width height aImg bImg = false) ∧
    (antialiased img x1 y1 width height aImg bImg = true →
      (∃ d ∈ aaNeighborDeltas img x1 y1 width height, d < 0) ∧
      (∃ d ∈ aaNeighborDeltas img x1 y1 width height, 0 < d) ∧
      aaEdgeBonus x1 y1 width height +
        (aaNeighborDeltas img x1 y1 width height).countP (fun d => decide (d = 0)) ≤ 2) := by
  have hz0 : aaEdgeBonus x1 y1 width height ≤ 2 := by
    unfold aaEdgeBonus
    split_ifs <;> omega
  refine ⟨?_, ?_, ?_, ?_⟩
  · intro hcnt
    unfold aaNeighborDeltas at hcnt
    dsimp only at hcnt
    rw [List.countP_map] at hcnt
    unfold antialiased
    dsimp only
    rw [aaLoop_none_of_many img width (y1 * width + x1) _ _ (by exact hz0) (by exact hcnt)]
  · intro hall
    unfold aaNeighborDeltas at hall
    dsimp only at hall
    unfold antialiased
    dsimp only
    split
    · rfl
    · next st heq =>
      have hd0 : st.darkest = 0 :=
        aaLoop_darkest_zero img width (y1 * width + x1) _ _ st rfl
          (fun q hq => hall _ (List.mem_map_of_mem _ hq)) heq
      rw [if_pos (Or.inl hd0)]
  · intro hall
    unfold aaNeighborDeltas at hall
    dsimp only at hall
    unfold antialiased
    dsimp only
    split
    · rfl
    · next st heq =>
      have hb0 : st.brightest = 0 :=
        aaLoop_brightest_zero img width (y1 * width + x1) _ _ st rfl
          (fun q hq => hall _ (List.mem_map_of_mem _ hq)) heq
      rw [if_pos (Or.inr hb0)]
  · intro htrue
    unfold antialiased at htrue
    dsimp only at htrue
    unfold aaNeighborDeltas
    dsimp only
    rw [List.countP_map]
    rcases haa : aaLoop img width (y1 * width + x1)
        (neighborList (x1 - 1) (min (x1 + 1) (width - 1)) (y1 - 1)
          (min (y1 + 1) (height - 1)) x1 y1)
        ⟨if x1 = x1 - 1 ∨ x1 = min (x1 + 1) (width - 1) ∨ y1 = y1 - 1 ∨
            y1 = min (y1 + 1) (height - 1) then 1 else 0, 0, 0, 0, 0, 0, 0⟩ with
      _ | st
    · rw [haa] at htrue
      exact absurd htrue (by simp)
    · rw [haa] at htrue
      simp only [] at htrue
      split_ifs at htrue with hz
      push_neg at hz
      obtain ⟨hdne, hbne⟩ := hz
      obtain ⟨q1, hq1, hlt1⟩ :=
        aaLoop_darkest_neg img width (y1 * width + x1) _ _ st rfl haa hdne
      obtain ⟨q2, hq2, hlt2⟩ :=
        aaLoop_brightest_pos img width (y1 * width + x1) _ _ st rfl haa hbne
      obtain ⟨hzeq, hzle⟩ := aaLoop_some_zeroes img width (y1 * width + x1) _ _ st haa
      refine ⟨⟨aaDelta img width (y1 * width + x1) q1, List.mem_map_of_mem _ hq1, hlt1⟩,
        ⟨aaDelta img width (y1 * width + x1) q2, List.mem_map_of_mem _ hq2, hlt2⟩, ?_⟩
      have hst2 := hzle (by exact hz0)
      have hedge : aaEdgeBonus x1 y1 width height =
          (if x1 = x1 - 1 ∨ x1 = min (x1 + 1) (width - 1) ∨ y1 = y1 - 1 ∨
            y1 = min (y1 + 1) (height - 1) then 1 else 0) := rfl
      dsimp only at hzeq
      simp only [Function.comp_def]
      rw [hedge]
      omega

/-! ### Validation errors -/

/-- **C5.**  `pixelmatch` raises the format error when any supplied buffer
is not a one-byte-per-sample view (checked first); with well-formatted
buffers it raises the size-mismatch error when `img1` and `img2` differ in
length or an output of different length is supplied; with agreeing lengths
it raises the dimension error when the length is not `width*height*4`.
The three errors are distinct values, and in every error case the output
buffer contents are returned untouched (the source throws before any
per-pixel work). -/
theorem claim5_errors (img1 img2 : JSBuffer) (output : Option JSBuffer)
    (width height : ℕ) (o : PixelmatchOptions) :
    ((isPixelData img1 = false ∨ isPixelData img2 = false ∨
        (∃ out, output = some out ∧ isPixelData out = false)) →
      pixelmatch img1 img2 output width height o =
        (Except.error PMError.formatError, output.map JSBuffer.data)) ∧
    (isPixelData img1 = true → isPixelData img2 = true →
      (∀ out ∈ output, isPixelData out = true) →
      (img1.data.length ≠ img2.data.length ∨
        (∃ out ∈ output, out.data.length ≠ img1.data.length)) →
      pixelmatch img1 img2 output width height o =
        (Except.error PMError.sizeMismatchError, output.map JSBuffer.data)) ∧
    (isPixelData img1 = true → isPixelData img2 = true →
      (∀ out ∈ output, isPixelData out = true) →
      img1.data.length = img2.data.length →
      (∀ out ∈ output, out.data.length = img1.data.length) →
      img1.data.length ≠ width * height * 4 →
      pixelmatch img1 img2 output width height o =
        (Except.error PMError.dimensionMismatchError, output.map JSBuffer.data)) ∧
    (PMError.formatError ≠ PMError.sizeMismatchError ∧
      PMError.formatError ≠ PMError.dimensionMismatchError ∧
      PMError.sizeMismatchError ≠ PMError.dimensionMismatchError) := by
  refine ⟨?_, ?_, ?_, by decide, by decide, by decide⟩
  · intro hfmt
    have hcond : ¬ ((isPixelData img1 && isPixelData img2 && outputFormatOk output) = true) := by
      rcases hfmt with h | h | ⟨out, rfl, h⟩ <;> simp [outputFormatOk, h]
    unfold pixelmatch
    rw [if_pos hcond]
  · intro hf1 hf2 hfo hlen
    have hcond : ¬ ¬ ((isPixelData img1 && isPixelData img2 && outputFormatOk output) = true) := by
      rcases output with _ | out0 <;> simp [outputFormatOk, hf1, hf2]
      exact hfo out0 rfl
    have hcond2 : (img1.data.length != img2.data.length ||
        outputSizeBad output img1.data.length) = true := by
      rcases hlen with h | ⟨out, hmem, h⟩
      · simp [bne_iff_ne, h]
      · rcases output with _ | out0
        · cases hmem
        · rw [Option.mem_some_iff] at hmem
          subst hmem
          simp [outputSizeBad, bne_iff_ne, h]
    unfold pixelmatch
    rw [if_neg hcond, if_pos hcond2]
  · intro hf1 hf2 hfo hlen12 hleno hdim
    have hcond : ¬ ¬ ((isPixelData img1 && isPixelData img2 && outputFormatOk output) = true) := by
      rcases output with _ | out0 <;> simp [outputFormatOk, hf1, hf2]
      exact hfo out0 rfl
    have hcond2 : ¬ ((img1.data.length != img2.data.length ||
        outputSizeBad output img1.data.length) = true) := by
      rcases output with _ | out0
      · simp [outputSizeBad, hlen12]
      · have h0 := hleno out0 rfl
        simp [outputSizeBad, hlen12, h0]
    unfold pixelmatch
    rw [if_neg hcond, if_neg hcond2, if_pos hdim]

/-! ### Concrete counterexamples and evaluations -/

set_option maxHeartbeats 2000000 in
/-- **C1 (counterexample).**  On the 1×1 white-vs-black pair with
`threshold = 0.8` and `horizontalShiftPixels = 1`, the sequential
`pixelmatch` counts 0 differing pixels (its `findBestMatchingPixel`
returns the `9999` sentinel, which is below the threshold) while the
band/worker path counts 1 (its core-utils copy returns the true delta
`≈ -32857`).  The claimed observational equivalence fails as stated. -/
theorem claim1_counterexample :
    (pixelmatchCore [255, 255, 255, 255] [0, 0, 0, 255] none 1 1
        ⟨0.8, false, 0.1, (255, 255, 0), (255, 0, 0), none, false, 1, 0⟩).1 = 0 ∧
    (pixelmatchNodeWorkers 1 [255, 255, 255, 255] [0, 0, 0, 255] none 1 1
        ⟨0.8, false, 0.1, (255, 255, 0), (255, 0, 0), none, false, 1, 0⟩).1 = 1 ∧
    (pixelmatchCore [255, 255, 255, 255] [0, 0, 0, 255] none 1 1
        ⟨0.8, false, 0.1, (255, 255, 0), (255, 0, 0), none, false, 1, 0⟩).1 ≠
      (pixelmatchNodeWorkers 1 [255, 255, 255, 255] [0, 0, 0, 255] none 1 1
        ⟨0.8, false, 0.1, (255, 255, 0), (255, 0, 0), none, false, 1, 0⟩).1 := by
  have habs : |(131428532628570613142853 : ℚ) / 4000000000000000000| =
      131428532628570613142853 / 4000000000000000000 := abs_of_nonneg (by norm_num)
  have hmap : WithTop.map (fun q : ℚ => |q|) (9999 : WithTop ℚ) = (9999 : WithTop ℚ) := by
    rw [show (9999 : WithTop ℚ) = ((9999 : ℚ) : WithTop ℚ) from rfl, WithTop.map_coe]
    norm_num
  have hnlt : ¬ (((112688 / 5 : ℚ) : WithTop ℚ) < (9999 : WithTop ℚ)) := by
    rw [show (9999 : WithTop ℚ) = ((9999 : ℚ) : WithTop ℚ) from rfl]
    intro hc
    exact absurd (WithTop.coe_lt_coe.mp hc) (by norm_num)
  have hmn : WithTop.map (fun q : ℚ => |q|)
      (-((131428532628570613142853 / 4000000000000000000 : ℚ) : WithTop ℚ)) =
      ((131428532628570613142853 / 4000000000000000000 : ℚ) : WithTop ℚ) := by
    rw [show -((131428532628570613142853 / 4000000000000000000 : ℚ) : WithTop ℚ) =
        (((-(131428532628570613142853 / 4000000000000000000) : ℚ)) : WithTop ℚ) from rfl,
      WithTop.map_coe]
    norm_num
  have h : (pixelmatchCore [255, 255, 255, 255] [0, 0, 0, 255] none 1 1
        ⟨0.8, false, 0.1, (255, 255, 0), (255, 0, 0), none, false, 1, 0⟩).1 = 0 ∧
      (pixelmatchNodeWorkers 1 [255, 255, 255, 255] [0, 0, 0, 255] none 1 1
        ⟨0.8, false, 0.1, (255, 255, 0), (255, 0, 0), none, false, 1, 0⟩).1 = 1 := by
    constructor <;>
      norm_num [pixelmatchCore, pixelmatchNodeWorkers, workerBody, imagesIdentical, pixelList,
        pixelStepSeq, pixelStepWorker, pixelStepWith, fbmpSeq, findBestMatchingPixelIdx,
        findBestMatchingPixel, shiftPairs, shiftList, isOutOfBounds, shiftedPos,
        a32, colorDelta, px, absT, WithTop.coe_lt_top, WithTop.map_top, WithTop.map_coe,
        WithTop.coe_lt_coe, WithTop.coe_le_coe, List.range_succ, List.range', habs, hmap,
        hnlt, hmn, antialiased, neighborList, aaLoop, hasManySiblings, hmsLoop]
  refine ⟨h.1, h.2, ?_⟩
  rw [h.1, h.2]
  decide

/-- **C1 (witness).** -/
theorem claim1_witness :
    pixelmatchNodeWorkers 1 [0, 0, 0, 255] [255, 255, 255, 255] none 1 1 defaultOptions =
      pixelmatchCore [0, 0, 0, 255] [255, 255, 255, 255] none 1 1 defaultOptions :=
  claim1_parallel_sequential_equiv [0, 0, 0, 255] [255, 255, 255, 255] none 1 1 1
    defaultOptions (by decide) (by intro out h; simp at h) rfl rfl rfl
    (by norm_num [defaultOptions])

/-- **C2 (counterexample).**  Black-vs-white: the second pixel is strictly
brighter (the luminance delta, `colorDelta` in `yOnly` mode, is negative),
yet `colorDelta(..., false)` returns a *positive* value — the claim's
"negative when the second pixel is brighter" has the direction backwards. -/
theorem claim2_counterexample :
    colorDelta [0, 0, 0, 255] [255, 255, 255, 255] 0 0 true < 0 ∧
      0 < colorDelta [0, 0, 0, 255] [255, 255, 255, 255] 0 0 false := by
  constructor <;> norm_num [colorDelta, px]

/-- **C2 (witness).** -/
theorem claim2_witness :
    (colorDelta [0, 0, 0, 255] [10, 0, 0, 255] 0 0 false < 0 ↔
      0 < colorDelta [0, 0, 0, 255] [10, 0, 0, 255] 0 0 true) :=
  claim2_sign [0, 0, 0, 255] [10, 0, 0, 255] 0 0 (by norm_num [colorDelta, px])

set_option maxHeartbeats 2000000 in
/-- **C3 (counterexample).**  With `diffMask = true` and a 1×1 pair whose
single pixel is similar (below threshold), no branch writes: the output
buffer keeps whatever the caller passed in ([7,7,7,7] stays [7,7,7,7],
[9,9,9,9] stays [9,9,9,9]), so the output is not fully overwritten for
every options record. -/
theorem claim3_counterexample :
    pixelmatchCore [0, 0, 0, 255] [1, 0, 0, 255] (some [7, 7, 7, 7]) 1 1
        ⟨1, false, 0.1, (255, 255, 0), (255, 0, 0), none, true, 0, 0⟩ =
      (0, some [7, 7, 7, 7]) ∧
    pixelmatchCore [0, 0, 0, 255] [1, 0, 0, 255] (some [9, 9, 9, 9]) 1 1
        ⟨1, false, 0.1, (255, 255, 0), (255, 0, 0), none, true, 0, 0⟩ =
      (0, some [9, 9, 9, 9]) := by
  have hle : ((2001200855841176687 / 12500000000000000000 : ℚ) : WithTop ℚ) ≤
      (35215 : WithTop ℚ) := by
    rw [show (35215 : WithTop ℚ) = ((35215 : ℚ) : WithTop ℚ) from rfl]
    exact WithTop.coe_le_coe.mpr (by norm_num)
  constructor <;>
    norm_num [pixelmatchCore, imagesIdentical, pixelList, pixelStepSeq, pixelStepWith,
      a32, colorDelta, px, absT, WithTop.coe_lt_top, WithTop.map_top, WithTop.map_coe,
      WithTop.coe_lt_coe, WithTop.coe_le_coe, List.range_succ, List.range', abs_of_nonneg,
      hle, antialiased, neighborList, aaLoop, hasManySiblings, hmsLoop]

/-- **C3 (witness).** -/
theorem claim3_witness :
    (pixelmatchCore [0, 0, 0, 255] [1, 0, 0, 255] (some [0, 0, 0, 0]) 1 1
        defaultOptions).2 =
      (pixelmatchCore [0, 0, 0, 255] [1, 0, 0, 255] (some [1, 2, 3, 4]) 1 1
        defaultOptions).2 :=
  claim3_full_overwrite [0, 0, 0, 255] [1, 0, 0, 255] [0, 0, 0, 0] [1, 2, 3, 4] 1 1
    defaultOptions rfl (by decide) (by decide)

/-- **C4 (witness).** -/
theorem claim4_witness :
    (pixelmatchCore [5, 5, 5, 255] [5, 5, 5, 255] (some [1, 1, 1, 1]) 1 1
        defaultOptions).1 = 0 ∧
    (pixelmatchNodeWorkers 1 [5, 5, 5, 255] [5, 5, 5, 255] (some [1, 1, 1, 1]) 1 1
        defaultOptions).1 = 0 :=
  ⟨(claim4_identical [5, 5, 5, 255] (some [1, 1, 1, 1]) 1 1 1 defaultOptions (by decide)
      (by intro out h; rw [Option.mem_some_iff] at h; subst h; decide)).1,
   (claim4_identical [5, 5, 5, 255] (some [1, 1, 1, 1]) 1 1 1 defaultOptions (by decide)
      (by intro out h; rw [Option.mem_some_iff] at h; subst h; decide)).2.1⟩

/-- **C5 (witness).** -/
theorem claim5_witness :
    pixelmatch ⟨4, []⟩ ⟨1, []⟩ none 0 0 defaultOptions =
      (Except.error PMError.formatError, none) :=
  (claim5_errors ⟨4, []⟩ ⟨1, []⟩ none 0 0 defaultOptions).1 (Or.inl (by decide))

/-- **C6 (witness).** -/
theorem claim6_witness :
    (pixelmatchCore [0, 0, 0, 255] [255, 255, 255, 255] none 1 1
        { defaultOptions with threshold := (0.2 : ℚ) }).1 ≤
      (pixelmatchCore [0, 0, 0, 255] [255, 255, 255, 255] none 1 1
        { defaultOptions with threshold := (0.1 : ℚ) }).1 :=
  claim6_threshold_monotone [0, 0, 0, 255] [255, 255, 255, 255] none 1 1 defaultOptions
    0.1 0.2 (by norm_num) (by norm_num) (by norm_num)

set_option maxHeartbeats 2000000 in
/-- **C7.**  The `src/index.ts` copy of `findBestMatchingPixel` initialises
its minima to the finite sentinel `9999` (the core-utils copy uses
`Infinity`): on a 1×1 white-vs-black pair with a 1-pixel horizontal
window, every candidate delta has magnitude ≈ 32857 ≥ 9999, so the copy
returns the bare sentinel `9999`, which is *not* one of the computed
deltas — while the core-utils copy correctly returns the single computed
delta. -/
theorem claim7_sentinel_bug :
    findBestMatchingPixelIdx [255, 255, 255, 255] [0, 0, 0, 255] 0 0 1 1 0 1 0 = 9999 ∧
      colorDelta [255, 255, 255, 255] [0, 0, 0, 255] 0 0 false ≠ 9999 ∧
      findBestMatchingPixel [255, 255, 255, 255] [0, 0, 0, 255] 0 0 1 1 0 1 0 =
        ((colorDelta [255, 255, 255, 255] [0, 0, 0, 255] 0 0 false : ℚ) : WithTop ℚ) := by
  refine ⟨?_, ?_, ?_⟩
  · have habs : |(131428532628570613142853 : ℚ) / 4000000000000000000| =
        131428532628570613142853 / 4000000000000000000 := abs_of_nonneg (by norm_num)
    norm_num [findBestMatchingPixelIdx, shiftPairs, shiftList, isOutOfBounds, shiftedPos,
      List.range_succ, colorDelta, px, habs]
  · norm_num [colorDelta, px]
  · norm_num [findBestMatchingPixel, shiftPairs, shiftList, isOutOfBounds, shiftedPos,
      List.range_succ, absT, colorDelta, px, WithTop.coe_lt_top, WithTop.map_top,
      WithTop.map_coe, WithTop.coe_lt_coe]

/-- **C8 (witness).** -/
theorem claim8_witness :
    |colorDelta [0, 0, 0, 255] [255, 255, 255, 255] 0 0 false| =
      |colorDelta [255, 255, 255, 255] [0, 0, 0, 255] 0 0 false| :=
  claim8_swap_magnitude [0, 0, 0, 255] [255, 255, 255, 255] 0 0 (by decide) (by decide)

/-- **C9 (witness).** -/
theorem claim9_witness :
    antialiased [0, 0, 0, 255] 0 0 1 1 [0, 0, 0, 255] [0, 0, 0, 255] = false :=
  (claim9_antialiased_conditions [0, 0, 0, 255] [0, 0, 0, 255] [0, 0, 0, 255] 0 0 1 1).2.1
    (by
      intro d hd
      simp [aaNeighborDeltas, neighborList, List.range'] at hd)

/-- **C10 (witness).** -/
theorem claim10_witness :
    ((pixelmatchCore [0, 0, 0, 255] [0, 0, 0, 255] (some [1, 2, 3, 4]) 1 1
        defaultOptions).2.getD [1, 2, 3, 4]).getD 3 0 = [1, 2, 3, 4].getD 3 0 ∨
      ((pixelmatchCore [0, 0, 0, 255] [0, 0, 0, 255] (some [1, 2, 3, 4]) 1 1
        defaultOptions).2.getD [1, 2, 3, 4]).getD 3 0 = 255 :=
  claim10_opaque_writes [0, 0, 0, 255] [0, 0, 0, 255] [1, 2, 3, 4] 1 1 defaultOptions 3
    (by decide)

end PixelMatch
